import Mathlib

/-!
Verification of the schema reference resolution and documentation index
builder of the openresponses repository against its natural-language
specification.

The TypeScript modules are shallowly embedded as follows.

* A JS schema object becomes an inductive value with one optional field per
  schema key the code reads; JS truthiness of those fields is modelled
  explicitly (an absent field and the empty string are falsy, a present
  object or array, even an empty one, is truthy).
* The document is modelled by its components.schemas map, the only part of
  the document the classifier and builder modules read; it is an
  association list in insertion order, matching JS object key order.
* Recursion through document dereferencing can diverge in the source
  (a reference cycle), so every recursive function takes an explicit fuel
  argument that is consumed on every recursive call; a call that runs out
  of fuel returns the function's JS default value.  All definitions are
  structurally recursive and therefore evaluate inside the kernel.
* The JS identity test (resolved !== schema) after a dereference is
  modelled as: the document lookup succeeded.  A structural model cannot
  see object identity; the looked-up node is assumed to be a different
  object from the node holding the reference, which holds for every
  document produced by parsing JSON.
* JS numbers occurring as enum values are modelled as integers; none of
  the verified properties depends on non-integral numeric values.
* Array.prototype.sort with a comparator is modelled by an insertion sort
  over the same comparator; the locale order of localeCompare is modelled
  by code-point order.  The verified properties only depend on the sorted
  list being a permutation of its input.
-/

set_option maxHeartbeats 1000000

namespace OpenResponses

/-- Scalar enum values that can occur in an enum array: string, number,
boolean or null. -/
inductive EnumValue where
  | str (s : String)
  | num (n : Int)
  | bool (b : Bool)
  | null
deriving DecidableEq

/-- One JSON-Schema-like node, with exactly the fields the classifier and
builder modules read.  additionalProperties is only ever tested for JS
truthiness by the code, so it is modelled by the truthiness of its value. -/
inductive Schema where
  | mk (ref : Option String)
       (type : Option String)
       (description : Option String)
       (enum : Option (List EnumValue))
       (properties : Option (List (String × Schema)))
       (required : Option (List String))
       (items : Option Schema)
       (addProps : Option Bool)
       (anyOf : Option (List Schema))
       (oneOf : Option (List Schema))
       (allOf : Option (List Schema))
       (xInlineable : Option Bool)
       (xUnionTitle : Option String)
       (xEnumDescriptions : Option (List (String × String)))

namespace Schema

def ref : Schema → Option String
  | .mk r _ _ _ _ _ _ _ _ _ _ _ _ _ => r

def type : Schema → Option String
  | .mk _ t _ _ _ _ _ _ _ _ _ _ _ _ => t

def description : Schema → Option String
  | .mk _ _ d _ _ _ _ _ _ _ _ _ _ _ => d

def enum : Schema → Option (List EnumValue)
  | .mk _ _ _ e _ _ _ _ _ _ _ _ _ _ => e

def properties : Schema → Option (List (String × Schema))
  | .mk _ _ _ _ p _ _ _ _ _ _ _ _ _ => p

def required : Schema → Option (List String)
  | .mk _ _ _ _ _ r _ _ _ _ _ _ _ _ => r

def items : Schema → Option Schema
  | .mk _ _ _ _ _ _ i _ _ _ _ _ _ _ => i

def addProps : Schema → Option Bool
  | .mk _ _ _ _ _ _ _ a _ _ _ _ _ _ => a

def anyOf : Schema → Option (List Schema)
  | .mk _ _ _ _ _ _ _ _ a _ _ _ _ _ => a

def oneOf : Schema → Option (List Schema)
  | .mk _ _ _ _ _ _ _ _ _ o _ _ _ _ => o

def allOf : Schema → Option (List Schema)
  | .mk _ _ _ _ _ _ _ _ _ _ a _ _ _ => a

def xInlineable : Schema → Option Bool
  | .mk _ _ _ _ _ _ _ _ _ _ _ x _ _ => x

def xUnionTitle : Schema → Option String
  | .mk _ _ _ _ _ _ _ _ _ _ _ _ x _ => x

def xEnumDescriptions : Schema → Option (List (String × String))
  | .mk _ _ _ _ _ _ _ _ _ _ _ _ _ x => x

end Schema

/-- Truthiness of an optional JS string: present and non-empty. -/
def truthyS (o : Option String) : Bool :=
  match o with
  | some s => s != ""
  | none => false

/-- Truthiness of an optional JS boolean value. -/
def truthyB (o : Option Bool) : Bool :=
  match o with
  | some b => b
  | none => false

/-- JS string disjunction a or-else b: b when a is empty. -/
def jsOr (a b : String) : String := if a = "" then b else a

/-- JS disjunction of two optional object values: the first present one. -/
def jsOrO {α : Type} (a b : Option α) : Option α :=
  match a with
  | some x => some x
  | none => b

/-! Kernel-computable models of the JS string operations the modules use
(split on a separator character, global substring replacement, prefix
test, decimal parsing).  The library versions do not reduce inside the
kernel, so the embedding carries its own structurally recursive
definitions with the same semantics. -/

/-- Split a character list at every occurrence of the separator. -/
def splitOnCharAux (sep : Char) : List Char → List Char → List String
  | [], cur => [String.mk cur.reverse]
  | c :: cs, cur =>
    if c = sep then String.mk cur.reverse :: splitOnCharAux sep cs []
    else splitOnCharAux sep cs (c :: cur)

/-- JS String.split with a one-character separator; the empty string
splits to one empty segment, as in JS. -/
def splitOnChar (sep : Char) (s : String) : List String :=
  splitOnCharAux sep s.data []

/-- One fuelled pass of left-to-right non-overlapping replacement. -/
def replaceFuel (pat rep : List Char) : Nat → List Char → List Char
  | 0, l => l
  | _ + 1, [] => []
  | n + 1, c :: cs =>
    if pat.isPrefixOf (c :: cs) then
      rep ++ replaceFuel pat rep n ((c :: cs).drop pat.length)
    else c :: replaceFuel pat rep n cs

/-- Global substring replacement, as the JS replace with a global regexp
of a literal pattern: scan left to right, non-overlapping. -/
def replaceAll (s pat rep : String) : String :=
  if pat = "" then s
  else String.mk (replaceFuel pat.data rep.data s.data.length s.data)

/-- JS String.startsWith. -/
def strStartsWith (s p : String) : Bool := p.data.isPrefixOf s.data

def charDigit (c : Char) : Option Nat :=
  if 48 ≤ c.val ∧ c.val ≤ 57 then some (c.val.toNat - 48) else none

def strToNatAux : List Char → Nat → Option Nat
  | [], acc => some acc
  | c :: cs, acc =>
    match charDigit c with
    | some d => strToNatAux cs (acc * 10 + d)
    | none => none

/-- Decimal parse of a non-empty all-digit string. -/
def strToNat (s : String) : Option Nat :=
  match s.data with
  | [] => none
  | l => strToNatAux l 0

/-- ref.split of the slash then pop: the final slash-separated segment. -/
def lastSeg (r : String) : String := (splitOnChar (Char.ofNat 47) r).getLastD ""

/-- The components.schemas map of the document, keyed by schema name. -/
abbrev Doc := List (String × Schema)

def lookupSchema (doc : Doc) (name : String) : Option Schema :=
  (doc.find? (fun p => p.1 == name)).map (fun p => p.2)

/-- getSchemaFromRef of the classifier module: key on the final segment of
the reference string; an empty final segment resolves to nothing. -/
def getSchemaFromRef (doc : Doc) (r : String) : Option Schema :=
  let refName := lastSeg r
  if refName = "" then none else lookupSchema doc refName

/-- resolveRef of the classifier module: dereference one level, falling
back to the original node when the lookup fails. -/
def resolveRef (doc : Doc) (os : Option Schema) : Option Schema :=
  match os with
  | none => none
  | some s =>
    if truthyS s.ref then some ((getSchemaFromRef doc (s.ref.getD "")).getD s)
    else some s

/-- The resolved-and-distinct test several classifier functions perform
after resolveRef: in this structural model, the document lookup succeeded. -/
def resolveRefStrict (doc : Doc) (s : Schema) : Option Schema :=
  if truthyS s.ref then getSchemaFromRef doc (s.ref.getD "") else none

/-- getRefName of the classifier module: the final segment of the node's
reference string when a reference string is present at all. -/
def getRefName (s : Schema) : Option String := s.ref.map lastSeg

/-- getDescription: own description, else the second allOf branch's
description, else dereference, else the first non-empty branch description. -/
def getDescription (doc : Doc) : Nat → Option Schema → String
  | _, none => ""
  | 0, some _ => ""
  | fuel + 1, some s =>
    let allOfSnd := (s.allOf.bind (fun l => l.get? 1)).bind Schema.description
    let fromVariants :=
      match jsOrO s.anyOf (jsOrO s.oneOf s.allOf) with
      | some l =>
        ((l.map (fun it => getDescription doc fuel (some it))).find?
          (fun d => d != "")).getD ""
      | none => ""
    if truthyS s.description then s.description.getD ""
    else if truthyS allOfSnd then allOfSnd.getD ""
    else if truthyS s.ref then
      match resolveRefStrict doc s with
      | some r => getDescription doc fuel (some r)
      | none => fromVariants
    else fromVariants

/-- getTypeLabel: reference name, object-shaped, items, explicit type,
allOf reference branch, first non-null anyOf branch, first oneOf branch,
otherwise unknown. -/
def getTypeLabel (doc : Doc) : Nat → Option Schema → String
  | _, none => "unknown"
  | 0, some _ => "unknown"
  | fuel + 1, some s =>
    if truthyS s.ref then jsOr (lastSeg (s.ref.getD "")) "unknown"
    else if s.properties.isSome || truthyB s.addProps then "object"
    else
      match s.items with
      | some it => getTypeLabel doc fuel (some it)
      | none =>
        if truthyS s.type then s.type.getD ""
        else
          let allOfHit := s.allOf.bind (fun l =>
            (l.find? (fun it => truthyS it.ref)).map (fun ri =>
              jsOr (lastSeg (ri.ref.getD "")) "object"))
          match allOfHit with
          | some v => v
          | none =>
            match s.anyOf with
            | some l =>
              jsOr (getTypeLabel doc fuel
                (l.find? (fun it => it.type != some "null"))) "unknown"
            | none =>
              match s.oneOf with
              | some l => jsOr (getTypeLabel doc fuel l.head?) "unknown"
              | none => "unknown"

/-- getUnionVariants: dereference, then flatten the non-null anyOf or oneOf
branches, splicing nested unions in place. -/
def getUnionVariants (doc : Doc) : Nat → Option Schema → List Schema
  | _, none => []
  | 0, some _ => []
  | fuel + 1, some s =>
    let fromBranches :=
      match jsOrO s.anyOf s.oneOf with
      | some l =>
        (l.filter (fun it => it.type != some "null")).foldl
          (fun acc it =>
            let nested := getUnionVariants doc fuel (some it)
            if nested.length > 0 then acc ++ nested else acc ++ [it]) []
      | none => []
    if truthyS s.ref then
      match resolveRefStrict doc s with
      | some r => getUnionVariants doc fuel (some r)
      | none => fromBranches
    else fromBranches

/-- getInlineable: the extension flag, else dereference, else any branch. -/
def getInlineable (doc : Doc) : Nat → Option Schema → Bool
  | _, none => false
  | 0, some _ => false
  | fuel + 1, some s =>
    if s.xInlineable = some true then true
    else if truthyS s.ref then getInlineable doc fuel (resolveRef doc (some s))
    else
      match jsOrO s.anyOf (jsOrO s.oneOf s.allOf) with
      | some l => l.any (fun it => getInlineable doc fuel (some it))
      | none => false

/-- getUnionTitle: the extension title, else dereference, else the first
truthy title among non-null union branches. -/
def getUnionTitle (doc : Doc) : Nat → Option Schema → Option String
  | _, none => none
  | 0, some _ => none
  | fuel + 1, some s =>
    if truthyS s.xUnionTitle then s.xUnionTitle
    else if truthyS s.ref then getUnionTitle doc fuel (resolveRef doc (some s))
    else
      match jsOrO s.anyOf s.oneOf with
      | some l =>
        (((l.filter (fun it => it.type != some "null")).map
          (fun it => getUnionTitle doc fuel (some it))).find?
            (fun t => truthyS t)).join
      | none => none

/-- getSchemaProperties: dereference, object properties, array items, then
the first branch with properties among allOf, anyOf, oneOf in that order. -/
def getSchemaProperties (doc : Doc) :
    Nat → Option Schema → Option (List (String × Schema))
  | _, none => none
  | 0, some _ => none
  | fuel + 1, some s =>
    if truthyS s.ref then getSchemaProperties doc fuel (resolveRef doc (some s))
    else if s.type = some "object" ∧ s.properties.isSome then s.properties
    else if s.type = some "array" ∧ s.items.isSome then
      getSchemaProperties doc fuel s.items
    else
      let tryList (ol : Option (List Schema)) : Option (List (String × Schema)) :=
        match ol with
        | some l =>
          ((l.map (fun it => getSchemaProperties doc fuel (some it))).find?
            (fun p => p.isSome)).join
        | none => none
      match tryList s.allOf with
      | some v => some v
      | none =>
        match tryList s.anyOf with
        | some v => some v
        | none => tryList s.oneOf

/-- getSchemaRequired: dereference, required of an object, array items,
then the first non-empty branch result among allOf, anyOf, oneOf. -/
def getSchemaRequired (doc : Doc) : Nat → Option Schema → List String
  | _, none => []
  | 0, some _ => []
  | fuel + 1, some s =>
    if truthyS s.ref then getSchemaRequired doc fuel (resolveRef doc (some s))
    else if s.type = some "object" then s.required.getD []
    else if s.type = some "array" ∧ s.items.isSome then
      getSchemaRequired doc fuel s.items
    else
      let tryList (ol : Option (List Schema)) : List String :=
        match ol with
        | some l =>
          ((l.map (fun it => getSchemaRequired doc fuel (some it))).find?
            (fun r => r.length > 0)).getD []
        | none => []
      let a := tryList s.allOf
      if a.length > 0 then a
      else
        let b := tryList s.anyOf
        if b.length > 0 then b else tryList s.oneOf

/-- The five primitive JSON-Schema type names. -/
def isPrimType (o : Option String) : Bool :=
  truthyS o &&
    (["string", "number", "integer", "boolean", "null"].contains (o.getD ""))

/-- isSchemaComplex: union keyword, array of complex items, object shaped,
a properties map, not a primitive type, otherwise has items. -/
def isSchemaComplex (doc : Doc) : Nat → Option Schema → Bool
  | _, none => false
  | 0, some _ => false
  | fuel + 1, some s =>
    if truthyS s.ref then isSchemaComplex doc fuel (resolveRef doc (some s))
    else if s.anyOf.isSome || s.oneOf.isSome || s.allOf.isSome then true
    else if s.type = some "array" then isSchemaComplex doc fuel s.items
    else if s.type = some "object" then true
    else if s.properties.isSome then true
    else if isPrimType s.type then false
    else s.items.isSome

/-- isArraySchema: dereference, explicit array shape, else any branch. -/
def isArraySchema (doc : Doc) : Nat → Option Schema → Bool
  | _, none => false
  | 0, some _ => false
  | fuel + 1, some s =>
    if truthyS s.ref then isArraySchema doc fuel (resolveRef doc (some s))
    else if s.type = some "array" || s.items.isSome then true
    else
      match jsOrO s.anyOf (jsOrO s.oneOf s.allOf) with
      | some l => l.any (fun it => isArraySchema doc fuel (some it))
      | none => false

/-- Push each value of the second list onto the first unless already
present, preserving first-seen order (the includes and push loop). -/
def dedupInto (acc l : List EnumValue) : List EnumValue :=
  l.foldl (fun a v => if v ∈ a then a else a ++ [v]) acc

/-- getEnumValues: dereference, recurse into array items, own enum array,
else the de-duplicated concatenation over the first present branch list
among anyOf, oneOf, allOf. -/
def getEnumValues (doc : Doc) : Nat → Option Schema → List EnumValue
  | _, none => []
  | 0, some _ => []
  | fuel + 1, some s =>
    if truthyS s.ref then getEnumValues doc fuel (resolveRef doc (some s))
    else if s.type = some "array" ∧ s.items.isSome then
      getEnumValues doc fuel s.items
    else
      match s.enum with
      | some vs => vs
      | none =>
        match jsOrO s.anyOf (jsOrO s.oneOf s.allOf) with
        | some l =>
          l.foldl (fun acc it => dedupInto acc (getEnumValues doc fuel (some it))) []
        | none => []

/-- getEnumDescriptions: dereference, array items, own extension map, else
the first non-empty branch map. -/
def getEnumDescriptions (doc : Doc) : Nat → Option Schema → List (String × String)
  | _, none => []
  | 0, some _ => []
  | fuel + 1, some s =>
    if truthyS s.ref then getEnumDescriptions doc fuel (resolveRef doc (some s))
    else if s.type = some "array" ∧ s.items.isSome then
      getEnumDescriptions doc fuel s.items
    else
      match s.xEnumDescriptions with
      | some m => m
      | none =>
        match jsOrO s.anyOf (jsOrO s.oneOf s.allOf) with
        | some l =>
          ((l.map (fun it => getEnumDescriptions doc fuel (some it))).find?
            (fun d => d.length > 0)).getD []
        | none => []

/-! The index builder module (reference collection, section building and
row building). -/

/-- The three section kinds of the builder module. -/
inductive SectionKind where
  | enum
  | object
  | union
deriving DecidableEq

/-- The string a kind contributes to a section id. -/
def kindStr : SectionKind → String
  | .enum => "enum"
  | .object => "object"
  | .union => "union"

/-- The value stored in the name-to-section lookup table. -/
structure SectionRef where
  id : String
  kind : SectionKind
deriving DecidableEq

/-- One entry of a row's union variant list; groupVariants is the nested
group of the array-of-union case. -/
inductive ParameterUnionVariant where
  | mk (label : String) (array : Bool) (sectionId : Option String)
       (typeClass : String) (groupVariants : Option (List ParameterUnionVariant))

namespace ParameterUnionVariant

def label : ParameterUnionVariant → String
  | .mk l _ _ _ _ => l

def array : ParameterUnionVariant → Bool
  | .mk _ a _ _ _ => a

def sectionId : ParameterUnionVariant → Option String
  | .mk _ _ s _ _ => s

def typeClass : ParameterUnionVariant → String
  | .mk _ _ _ t _ => t

def groupVariants : ParameterUnionVariant → Option (List ParameterUnionVariant)
  | .mk _ _ _ _ g => g

end ParameterUnionVariant

/-- One display row of an inline object expansion. -/
structure InlineRow where
  name : String
  type : String
  description : String
  array : Bool
  required : Bool
  enumValues : List EnumValue
  enumDescriptions : List (String × String)
  literalValue : Option String
  unionVariants : List ParameterUnionVariant

/-- One top-level parameter row of an operation's request schema. -/
structure ParameterRow where
  name : String
  typeLabel : String
  typeClass : String
  description : String
  required : Bool
  array : Bool
  enumValues : List EnumValue
  enumDescriptions : List (String × String)
  literalValue : Option String
  inlineable : Bool
  inlineRows : List InlineRow
  isUnion : Bool
  unionVariants : List ParameterUnionVariant
  typeLinkId : Option String

/-- A deduplicated enum section. -/
structure EnumSection where
  kind : SectionKind
  id : String
  name : String
  title : String
  description : String
  values : List EnumValue
  descriptions : List (String × String)

/-- A deduplicated object section. -/
structure ObjectSection where
  kind : SectionKind
  id : String
  name : String
  title : String
  description : String
  rows : List InlineRow

/-- A deduplicated union section; its variant links share the shape of row
union variants. -/
structure UnionSection where
  kind : SectionKind
  id : String
  name : String
  title : String
  description : String
  variants : List ParameterUnionVariant

/-- The three section partitions plus the name lookup table. -/
structure ReferenceSections where
  enums : List EnumSection
  objects : List ObjectSection
  unions : List UnionSection
  byName : List (String × SectionRef)

/-- Map.get on the name lookup table. -/
def byNameGet (m : List (String × SectionRef)) (name : String) :
    Option SectionRef :=
  (m.find? (fun p => p.1 == name)).map (fun p => p.2)

/-- The full index returned by the single-root entry point. -/
structure ReferenceIndex where
  parameterRows : List ParameterRow
  sections : ReferenceSections

/-- getRefNameDeep: the reference name of the node, else of its array
items, else of the first allOf branch carrying one. -/
def getRefNameDeep : Nat → Option Schema → Option String
  | _, none => none
  | 0, some _ => none
  | fuel + 1, some s =>
    if truthyS s.ref then some (lastSeg (s.ref.getD ""))
    else if s.type = some "array" ∧ s.items.isSome then
      getRefNameDeep fuel s.items
    else
      match s.allOf with
      | some l =>
        ((l.map (fun it => getRefNameDeep fuel (some it))).find?
          (fun r => truthyS r)).join
      | none => none

/-- getSchemaKind: union, else enum, else object, else the kind of the
array items, else object when complex, else nothing. -/
def getSchemaKind (doc : Doc) : Nat → Option Schema → Option SectionKind
  | _, none => none
  | 0, some _ => none
  | fuel + 1, some s =>
    if truthyS s.ref then getSchemaKind doc fuel (resolveRef doc (some s))
    else if s.anyOf.isSome || s.oneOf.isSome then some .union
    else if (getEnumValues doc (fuel + 1) (some s)).length > 0 then some .enum
    else if s.type = some "object" || s.properties.isSome then some .object
    else if s.type = some "array" || s.items.isSome then
      getSchemaKind doc fuel s.items
    else if isSchemaComplex doc (fuel + 1) (some s) then some .object
    else none

/-- getTypeClass: enum when enum values exist, a primitive label when the
label is one, otherwise object. -/
def getTypeClass (doc : Doc) (fuel : Nat) (os : Option Schema) : String :=
  match os with
  | none => "object"
  | some _ =>
    if (getEnumValues doc fuel os).length > 0 then "enum"
    else
      let label := getTypeLabel doc fuel os
      if label = "string" then "string"
      else if label = "boolean" then "boolean"
      else if label = "number" || label = "integer" then label
      else "object"

/-- JS String(value) on an enum value. -/
def jsStringOfEnum : EnumValue → String
  | .str s => s
  | .num n => toString n
  | .bool b => if b then "true" else "false"
  | .null => "null"

/-- getVariantLabel: deep reference name, else a single enum value as a
quoted literal, else the word enum, else the type label. -/
def getVariantLabel (doc : Doc) (fuel : Nat) (v : Schema) : String :=
  let refName := getRefNameDeep fuel (some v)
  let enumVals := getEnumValues doc fuel (some v)
  if truthyS refName then refName.getD ""
  else if enumVals.length = 1 then
    "\"" ++ jsStringOfEnum (enumVals.headD .null) ++ "\""
  else if enumVals.length > 1 then "enum"
  else getTypeLabel doc fuel (some v)

/-- The intermediate record of expandUnionVariantEntries. -/
structure UnionVariantEntry where
  schema : Schema
  array : Bool
  labelOverride : Option String
  typeClassOverride : Option String
  groupVariants : Option (List ParameterUnionVariant)

/-- expandUnionVariantEntries: an array-of-union variant becomes a single
grouped entry labelled array of; a plain array variant becomes one arrayed
entry; anything else passes through with its own array-ness. -/
def expandUnionVariantEntries (doc : Doc) (fuel : Nat)
    (sections : ReferenceSections) (s : Schema) : List UnionVariantEntry :=
  let resolved := (resolveRef doc (some s)).getD s
  if h : resolved.type = some "array" ∧ resolved.items.isSome then
    let itemSchema := resolved.items.get h.2
    let itemVariants := getUnionVariants doc fuel (some itemSchema)
    if itemVariants.length > 0 then
      let groupVariants := itemVariants.map (fun v =>
        let refName := getRefNameDeep fuel (some v)
        let sectionId :=
          if truthyS refName then
            (byNameGet sections.byName (refName.getD "")).map SectionRef.id
          else none
        ParameterUnionVariant.mk (getVariantLabel doc fuel v) false sectionId
          (getTypeClass doc fuel (some v)) none)
      [⟨s, false, some "array of", some "object", some groupVariants⟩]
    else [⟨s, true, none, none, none⟩]
  else [⟨s, isArraySchema doc fuel (some s), none, none, none⟩]

/-- buildUnionVariants: flatten the union, expand each variant, then turn
each entry into a variant descriptor with its section link. -/
def buildUnionVariants (doc : Doc) (fuel : Nat)
    (sections : ReferenceSections) (s : Schema) : List ParameterUnionVariant :=
  let variantSchemas := getUnionVariants doc fuel (some s)
  let entries :=
    (variantSchemas.map (fun v => expandUnionVariantEntries doc fuel sections v)).flatten
  entries.map (fun e =>
    let refName := getRefNameDeep fuel (some e.schema)
    let sectionId :=
      if truthyS refName then
        (byNameGet sections.byName (refName.getD "")).map SectionRef.id
      else none
    ParameterUnionVariant.mk
      (e.labelOverride.getD (getVariantLabel doc fuel e.schema))
      e.array sectionId
      (e.typeClassOverride.getD (getTypeClass doc fuel (some e.schema)))
      e.groupVariants)

/-- buildInlineRows: one display row per property of the schema's derived
property map, in property order. -/
def buildInlineRows (doc : Doc) (fuel : Nat) (os : Option Schema)
    (sections : ReferenceSections) : List InlineRow :=
  match getSchemaProperties doc fuel os with
  | none => []
  | some props =>
    let required := getSchemaRequired doc fuel os
    props.map (fun p =>
      let name := p.1
      let prop := p.2
      let enumVals := getEnumValues doc fuel (some prop)
      let t :=
        if enumVals.length > 0 then "enum" else getTypeLabel doc fuel (some prop)
      let litValue :=
        if enumVals.length = 1 then some (jsStringOfEnum (enumVals.headD .null))
        else none
      ⟨name, t, getDescription doc fuel (some prop),
       isArraySchema doc fuel (some prop), required.contains name,
       enumVals, getEnumDescriptions doc fuel (some prop), litValue,
       buildUnionVariants doc fuel sections prop⟩)

/-- collectRefSchemas: depth-first reference collection with the
insert-before-recursing cycle guard. -/
def collectRefSchemas (doc : Doc) : Nat → Option Schema → Doc → Doc
  | _, none, acc => acc
  | 0, some _, acc => acc
  | fuel + 1, some s, acc =>
    if truthyS s.ref then
      let refName := lastSeg (s.ref.getD "")
      let resolved := (resolveRef doc (some s)).getD s
      if refName ≠ "" ∧ acc.all (fun p => p.1 != refName) then
        collectRefSchemas doc fuel (some resolved) (acc ++ [(refName, resolved)])
      else acc
    else
      let acc1 :=
        match s.properties with
        | some l => l.foldl (fun a p => collectRefSchemas doc fuel (some p.2) a) acc
        | none => acc
      let acc2 :=
        match s.items with
        | some it => collectRefSchemas doc fuel (some it) acc1
        | none => acc1
      let acc3 :=
        match s.anyOf with
        | some l => l.foldl (fun a v => collectRefSchemas doc fuel (some v) a) acc2
        | none => acc2
      let acc4 :=
        match s.oneOf with
        | some l => l.foldl (fun a v => collectRefSchemas doc fuel (some v) a) acc3
        | none => acc3
      match s.allOf with
      | some l => l.foldl (fun a v => collectRefSchemas doc fuel (some v) a) acc4
      | none => acc4

/-- One pending section of the builder's first pass. -/
structure SectionEntryT where
  name : String
  schema : Schema
  kind : SectionKind
  id : String

/-- The first pass of buildSectionsFromRefs: skip inlineable schemas,
classify the rest, and record the first section kind each name receives. -/
def sectionLoop (doc : Doc) (fuel : Nat) :
    List (String × Schema) → List (String × SectionRef) → List SectionEntryT →
    List (String × SectionRef) × List SectionEntryT
  | [], byName, entries => (byName, entries)
  | (name, schema) :: rest, byName, entries =>
    if getInlineable doc fuel (some schema) then
      sectionLoop doc fuel rest byName entries
    else
      match getSchemaKind doc fuel (some schema) with
      | none => sectionLoop doc fuel rest byName entries
      | some kind =>
        let id := kindStr kind ++ "-" ++ name
        if byName.any (fun p => p.1 == name) then
          sectionLoop doc fuel rest byName entries
        else
          sectionLoop doc fuel rest (byName ++ [(name, ⟨id, kind⟩)])
            (entries ++ [⟨name, schema, kind, id⟩])

/-- Insertion of one element into a sorted list by a boolean comparator. -/
def insertLe {α : Type} (le : α → α → Bool) (x : α) : List α → List α
  | [] => [x]
  | y :: ys => if le x y then x :: y :: ys else y :: insertLe le x ys

/-- Insertion sort by a boolean comparator; models the comparator sort of
the builder (only the permutation property is relied upon). -/
def sortLe {α : Type} (le : α → α → Bool) : List α → List α
  | [] => []
  | x :: xs => insertLe le x (sortLe le xs)

/-- Code-point comparison standing in for localeCompare ordering. -/
def charListLe : List Char → List Char → Bool
  | [], _ => true
  | _ :: _, [] => false
  | c :: cs, d :: ds =>
    if c.val < d.val then true
    else if d.val < c.val then false
    else charListLe cs ds

def strLeB (a b : String) : Bool := charListLe a.data b.data

/-- The second pass of buildSectionsFromRefs, building one section per
retained entry against the completed lookup table. -/
def buildSectionsFromRefs (doc : Doc) (fuel : Nat)
    (refs : List (String × Schema)) : ReferenceSections :=
  let pass1 := sectionLoop doc fuel refs [] []
  let byName := pass1.1
  let entries := pass1.2
  let sections0 : ReferenceSections := ⟨[], [], [], byName⟩
  let enums := (entries.filter (fun e => e.kind == SectionKind.enum)).map
    (fun e => EnumSection.mk e.kind e.id e.name e.name
      (getDescription doc fuel (some e.schema))
      (getEnumValues doc fuel (some e.schema))
      (getEnumDescriptions doc fuel (some e.schema)))
  let objects := (entries.filter (fun e => e.kind == SectionKind.object)).map
    (fun e => ObjectSection.mk e.kind e.id e.name e.name
      (getDescription doc fuel (some e.schema))
      (buildInlineRows doc fuel (some e.schema) sections0))
  let unions := (entries.filter (fun e => e.kind == SectionKind.union)).map
    (fun e =>
      let unionTitle := jsOr ((getUnionTitle doc fuel (some e.schema)).getD "") e.name
      let variantEntries :=
        ((getUnionVariants doc fuel (some e.schema)).map
          (fun v => expandUnionVariantEntries doc fuel sections0 v)).flatten
      let variants := variantEntries.map (fun en =>
        let refName := getRefNameDeep fuel (some en.schema)
        let sectionId :=
          if truthyS refName then
            (byNameGet byName (refName.getD "")).map SectionRef.id
          else none
        ParameterUnionVariant.mk
          (en.labelOverride.getD (getVariantLabel doc fuel en.schema))
          en.array sectionId
          (en.typeClassOverride.getD (getTypeClass doc fuel (some en.schema)))
          en.groupVariants)
      UnionSection.mk e.kind e.id e.name unionTitle
        (getDescription doc fuel (some e.schema))
        (sortLe (fun a b => strLeB a.label b.label) variants))
  ⟨sortLe (fun a b => strLeB a.name b.name) enums,
   sortLe (fun a b => strLeB a.name b.name) objects,
   sortLe (fun a b => strLeB a.name b.name) unions,
   byName⟩

/-- collectRefsFromSchemas: merge per-root collections, first writer wins. -/
def collectRefsFromSchemas (doc : Doc) (fuel : Nat)
    (schemas : List (Option Schema)) : Doc :=
  schemas.foldl (fun merged os =>
    match os with
    | none => merged
    | some s =>
      (collectRefSchemas doc fuel (some s) []).foldl
        (fun m p => if m.any (fun q => q.1 == p.1) then m else m ++ [p]) merged) []

/-- buildParameterRows: rows straight off the root schema's own properties
field, with no dereferencing and no composite walking. -/
def buildParameterRows (doc : Doc) (fuel : Nat) (os : Option Schema)
    (sections : ReferenceSections) : List ParameterRow :=
  match os with
  | none => []
  | some s =>
    match s.properties with
    | none => []
    | some props =>
      let required := s.required.getD []
      props.map (fun p =>
        let name := p.1
        let prop := p.2
        let enumVals := getEnumValues doc fuel (some prop)
        let typeLabel := getTypeLabel doc fuel (some prop)
        let litValue :=
          if enumVals.length = 1 then some (jsStringOfEnum (enumVals.headD .null))
          else none
        let inlineable := getInlineable doc fuel (some prop)
        let unionVariants := buildUnionVariants doc fuel sections prop
        let typeRefName := getRefNameDeep fuel (some prop)
        let typeLinkId :=
          if ¬ inlineable ∧ truthyS typeRefName then
            (byNameGet sections.byName (typeRefName.getD "")).map SectionRef.id
          else none
        ⟨name, typeLabel,
         (if enumVals.length > 0 then "enum" else typeLabel),
         getDescription doc fuel (some prop), required.contains name,
         isArraySchema doc fuel (some prop), enumVals,
         getEnumDescriptions doc fuel (some prop), litValue, inlineable,
         (if inlineable then buildInlineRows doc fuel (some prop) sections else []),
         unionVariants.length > 0, unionVariants, typeLinkId⟩)

/-- buildReferenceIndex: the single-root entry point. -/
def buildReferenceIndex (doc : Doc) (fuel : Nat)
    (requestSchema : Option Schema) : ReferenceIndex :=
  let refs := collectRefsFromSchemas doc fuel [requestSchema]
  let sections := buildSectionsFromRefs doc fuel refs
  ⟨buildParameterRows doc fuel requestSchema sections, sections⟩

/-- buildReferenceSections: the multi-root entry point. -/
def buildReferenceSections (doc : Doc) (fuel : Nat)
    (schemas : List (Option Schema)) : ReferenceSections :=
  buildSectionsFromRefs doc fuel (collectRefsFromSchemas doc fuel schemas)

/-! The pointer resolver module over full JSON documents. -/

/-- A parsed JSON value, the shape the pointer resolver walks. -/
inductive Json where
  | null
  | bool (b : Bool)
  | num (n : Int)
  | str (s : String)
  | arr (elems : List Json)
  | obj (fields : List (String × Json))

/-- One JS property read cur of the segment on a JSON value: object field
lookup, or array indexing by a canonical decimal index.  Prototype-chain
properties of primitives are outside the JSON data model and yield
nothing. -/
def jsGet : Json → String → Option Json
  | .obj fields, key => (fields.find? (fun p => p.1 == key)).map (fun p => p.2)
  | .arr elems, key =>
    match strToNat key with
    | some i => if toString i = key then elems.get? i else none
    | none => none
  | _, _ => none

/-- decodePointerSegment: the two RFC 6901 escapes, in source order. -/
def decodePointerSegment (s : String) : String :=
  replaceAll (replaceAll s "~1" "/") "~0" "~"

/-- The field-by-field walk of getByJsonPointer, with its early return on
a null or absent intermediate value. -/
def walkPointer : Option Json → List String → Option Json
  | cur, [] => cur
  | none, _ :: _ => none
  | some .null, _ :: _ => none
  | some v, p :: ps => walkPointer (jsGet v p) ps

/-- getByJsonPointer: nothing unless the pointer starts with hash-slash,
else the sequential walk over the unescaped segments. -/
def getByJsonPointer (doc : Json) (ptr : String) : Option Json :=
  if strStartsWith ptr "#/" then
    walkPointer (some doc)
      ((splitOnChar (Char.ofNat 47) (ptr.drop 2)).map decodePointerSegment)
  else none

/-- resolveRef of the pointer resolver module: local pointers only. -/
def resolveRefTs (doc : Json) (r : String) : Option Json :=
  if strStartsWith r "#/" then getByJsonPointer doc r else none

/-- Sequential segment lookup exactly as the specification words it: look
up each slash-separated unescaped segment in sequence from the document
root, absent as soon as any intermediate value is absent; absent for any
pointer not starting with hash-slash.  Stated from the specification for
comparison against the source definition. -/
def specPointerLookup (doc : Json) (ptr : String) : Option Json :=
  if strStartsWith ptr "#/" then
    ((splitOnChar (Char.ofNat 47) (ptr.drop 2)).map decodePointerSegment).foldl
      (fun cur seg => cur.bind (fun v => jsGet v seg)) (some doc)
  else none

/-! Concrete fixtures used by witnesses and counterexamples. -/

/-- Schema constructor for the fields the fixtures need. -/
def mkS (ref type : Option String) (enum : Option (List EnumValue))
    (props : Option (List (String × Schema))) (items : Option Schema)
    (anyOf oneOf allOf : Option (List Schema)) : Schema :=
  .mk ref type none enum props none items none anyOf oneOf allOf none none none

/-- A bare reference node to the named schema under the conventional
components.schemas namespace. -/
def refTo (n : String) : Schema :=
  mkS (some ("#/components/schemas/" ++ n)) none none none none none none none

def strS : Schema := mkS none (some "string") none none none none none none

def nullS : Schema := mkS none (some "null") none none none none none none

/-- The nullable union wrapper anyOf of the schema and the null type. -/
def nullWrap (T : Schema) : Schema :=
  mkS none none none none none (some [T, nullS]) none none

/-- A plain named object schema with one string field. -/
def objX : Schema :=
  mkS none (some "object") none (some [("f", strS)]) none none none none

/-- A document with two named object schemas X and Y. -/
def docXY : Doc := [("X", objX), ("Y", objX)]

/-- The items node anyOf of references to X and Y. -/
def itemsXY : Schema :=
  mkS none none none none none (some [refTo "X", refTo "Y"]) none none

/-- The array-of-union schema: an array whose items is anyOf of X and Y. -/
def arrXY : Schema :=
  mkS none (some "array") none none (some itemsXY) none none none

/-- A property schema that is a union with the array-of-union branch. -/
def propXY : Schema :=
  mkS none none none none none (some [arrXY]) none none

def emptySections : ReferenceSections := ⟨[], [], [], []⟩

/-- Named schema A whose property refers to B. -/
def schA : Schema :=
  mkS none (some "object") none (some [("toB", refTo "B")]) none none none none

/-- Named schema B whose property refers back to A. -/
def schB : Schema :=
  mkS none (some "object") none (some [("toA", refTo "A")]) none none none none

/-- The mutually cyclic two-schema document of the cycle-safety scenario. -/
def docAB : Doc := [("A", schA), ("B", schB)]

/-- A named schema carrying the inlineable extension flag. -/
def inlW : Schema :=
  Schema.mk none (some "object") none none (some [("f", strS)]) none none none
    none none none (some true) none none

/-- A single-schema document for the named schema Pet. -/
def docPet : Doc := [("Pet", objX)]

/-- A reference node whose reference string does not start with the local
pointer prefix. -/
def refPetBare : Schema := mkS (some "Pet") none none none none none none none

/-- A document for the root-row claim: one named object schema. -/
def docC10 : Doc := [("Obj", objX)]

/-- A concrete JSON document exercising both pointer escapes. -/
def docJ : Json := .obj [("a/b", .obj [("~x", .num 7)])]

/-- The allOf node without any reference branch of the type-label
counterexample. -/
def c3s : Schema := mkS none none none none none none none (some [strS])

/-- The array schema with both its own enum and an enum on its items, for
the enum-priority counterexample. -/
def c8s : Schema :=
  mkS none (some "array") (some [.str "b"]) none
    (some (mkS none none (some [.str "a"]) none none none none none)) none none none

/-- A string schema with two enum values, used by witnesses. -/
def c7T : Schema :=
  mkS none (some "string") (some [.str "a", .str "b"]) none none none none none

/-! Helper lemmas. -/

/-! Machinery for the termination analysis of collectRefSchemas: a fuel
bound computed from the document under which the collection result is
independent of the fuel.  The bound combines the number of document keys
not yet recorded in the accumulator (each successful dereference records
one) with the largest schema size in the document (bounding the
structural descent between two dereferences). -/

mutual

/-- Structural size of a schema tree, counting the positions the
collector recurses into. -/
def schemaSize : Schema → Nat
  | .mk _ _ _ _ p _ i _ ao oo al _ _ _ =>
    1 + plSize p + osSchemaSize i + olSize ao + olSize oo + olSize al

def plSize : Option (List (String × Schema)) → Nat
  | none => 0
  | some l => pairsSize l

def pairsSize : List (String × Schema) → Nat
  | [] => 0
  | (_, s) :: rest => 1 + schemaSize s + pairsSize rest

def osSchemaSize : Option Schema → Nat
  | none => 0
  | some s => 1 + schemaSize s

def olSize : Option (List Schema) → Nat
  | none => 0
  | some l => listSize l

def listSize : List Schema → Nat
  | [] => 0
  | s :: rest => 1 + schemaSize s + listSize rest

end

/-- Size of an optional root schema. -/
def osSize : Option Schema → Nat
  | none => 0
  | some s => schemaSize s

/-- The largest schema size among the document's values. -/
def maxSchemaSize (doc : Doc) : Nat :=
  doc.foldr (fun p m => max (schemaSize p.2) m) 0

/-- Number of document keys not yet present among the accumulator keys. -/
def remKeys (doc acc : Doc) : Nat :=
  ((doc.map Prod.fst).filter (fun k => decide (k ∉ acc.map Prod.fst))).length

/-- Fuel bound under which collectRefSchemas has stabilised. -/
def needed (doc : Doc) (os : Option Schema) (acc : Doc) : Nat :=
  (remKeys doc acc + 1) * (maxSchemaSize doc + 2) + osSize os

theorem foldl_bind_none (ps : List String) :
    ps.foldl (fun cur seg => cur.bind (fun v => jsGet v seg)) none = none := by
  induction ps with
  | nil => rfl
  | cons p ps ih => simpa using ih

theorem walkPointer_eq_foldl (ps : List String) :
    ∀ (c : Option Json),
      walkPointer c ps =
        ps.foldl (fun cur seg => cur.bind (fun v => jsGet v seg)) c := by
  induction ps with
  | nil =>
    intro c
    cases c with
    | none => rfl
    | some v => cases v <;> rfl
  | cons p ps ih =>
    intro c
    cases c with
    | none =>
      rw [List.foldl_cons]
      rw [show (Option.bind none fun v => jsGet v p) = none from rfl]
      rw [show walkPointer none (p :: ps) = none from rfl]
      exact (foldl_bind_none ps).symm
    | some v =>
      rw [List.foldl_cons]
      rw [show ((some v).bind fun w => jsGet w p) = jsGet v p from rfl]
      cases v with
      | null =>
        rw [show jsGet Json.null p = none from rfl,
            show walkPointer (some Json.null) (p :: ps) = none from rfl]
        exact (foldl_bind_none ps).symm
      | bool b => exact ih (jsGet (.bool b) p)
      | num n => exact ih (jsGet (.num n) p)
      | str s => exact ih (jsGet (.str s) p)
      | arr e => exact ih (jsGet (.arr e) p)
      | obj f => exact ih (jsGet (.obj f) p)

/-! Claim theorems. -/

/-- C5: for every document and pointer, source pointer resolution equals
the sequential field lookup of the specification (segments unescaped with
the two RFC 6901 escapes, absent as soon as an intermediate is absent),
and a pointer that does not start with hash-slash always resolves to
absent. -/
theorem c5_pointer_resolution :
    (∀ (doc : Json) (ptr : String),
      getByJsonPointer doc ptr = specPointerLookup doc ptr) ∧
    (∀ (doc : Json) (ptr : String), strStartsWith ptr "#/" = false →
      getByJsonPointer doc ptr = none) := by
  constructor
  · intro doc ptr
    unfold getByJsonPointer specPointerLookup
    by_cases h : strStartsWith ptr "#/"
    · simp [h, walkPointer_eq_foldl]
    · simp [h]
  · intro doc ptr h
    unfold getByJsonPointer
    simp [h]

theorem c5_pointer_resolution_witness :
    getByJsonPointer (Json.obj [("k", Json.num 3)]) "abc" = none ∧
    getByJsonPointer docJ "#/a~1b/~0x" = some (Json.num 7) :=
  ⟨c5_pointer_resolution.2 (Json.obj [("k", Json.num 3)]) "abc" (by decide), rfl⟩

/-- C6 counterexample: the classifier's resolver keys on the last
slash-separated segment only, so the reference string Pet, which does not
start with hash-slash, still resolves to the named schema Pet. -/
theorem c6_counterexample :
    strStartsWith "Pet" "#/" = false ∧
    resolveRef docPet (some refPetBare) = some objX :=
  ⟨by decide, rfl⟩

/-- C6 amended: the pointer resolver module resolves any reference string
not starting with hash-slash to absent; the classifier module's resolver,
by contrast, keys on the last slash-separated segment and can resolve such
a reference to a named schema of the document. -/
theorem c6_nonlocal_refs :
    (∀ (doc : Json) (r : String), strStartsWith r "#/" = false →
      resolveRefTs doc r = none) ∧
    (strStartsWith "Pet" "#/" = false ∧
      resolveRef docPet (some refPetBare) = some objX) := by
  refine ⟨?_, by decide, rfl⟩
  intro doc r h
  unfold resolveRefTs
  simp [h]

theorem c6_nonlocal_refs_witness : resolveRefTs Json.null "Pet" = none :=
  c6_nonlocal_refs.1 Json.null "Pet" (by decide)

/-- C10: when the root request schema has no own properties field (in
particular when it is a bare reference node), the parameter rows of the
reference index are empty, while the inline row builder on the very same
reference node does dereference and produces a row. -/
theorem c10_root_rows_empty :
    (∀ (fuel : Nat) (doc : Doc) (s : Schema), s.properties = none →
      (buildReferenceIndex doc fuel (some s)).parameterRows = []) ∧
    (buildInlineRows docC10 4 (some (refTo "Obj")) emptySections).length = 1 := by
  refine ⟨?_, rfl⟩
  intro fuel doc s h
  unfold buildReferenceIndex buildParameterRows
  simp [h]

theorem c10_root_rows_empty_witness :
    (buildReferenceIndex docC10 3 (some (refTo "Obj"))).parameterRows = [] :=
  c10_root_rows_empty.1 3 docC10 (refTo "Obj") rfl

/-- C3 counterexample: an allOf node with no reference branch does not get
the label object; it falls through to the anyOf and oneOf checks and ends
at unknown. -/
theorem c3_counterexample : getTypeLabel [] 3 (some c3s) ≠ "object" := by decide

/-- C3 amended: the type label follows the source priority: a truthy
reference yields its final segment (unknown when that segment is empty); a
properties or truthy additionalProperties field yields object; an items
field recurses into the items label; a truthy type field yields that
value; an allOf with a reference branch yields that branch's name (object
when the name is empty); an allOf without a reference branch falls
through; then anyOf yields the label of its first branch not typed null;
then oneOf yields the label of its first branch; otherwise unknown. -/
theorem c3_type_label_priority (doc : Doc) (fuel : Nat) (s : Schema) :
    (truthyS s.ref = true →
      getTypeLabel doc (fuel + 1) (some s) =
        jsOr (lastSeg (s.ref.getD "")) "unknown") ∧
    (truthyS s.ref = false →
      (s.properties.isSome || truthyB s.addProps) = true →
      getTypeLabel doc (fuel + 1) (some s) = "object") ∧
    (∀ it, truthyS s.ref = false →
      (s.properties.isSome || truthyB s.addProps) = false →
      s.items = some it →
      getTypeLabel doc (fuel + 1) (some s) = getTypeLabel doc fuel (some it)) ∧
    (truthyS s.ref = false →
      (s.properties.isSome || truthyB s.addProps) = false →
      s.items = none → truthyS s.type = true →
      getTypeLabel doc (fuel + 1) (some s) = s.type.getD "") ∧
    (∀ l ri, truthyS s.ref = false →
      (s.properties.isSome || truthyB s.addProps) = false →
      s.items = none → truthyS s.type = false → s.allOf = some l →
      l.find? (fun it => truthyS it.ref) = some ri →
      getTypeLabel doc (fuel + 1) (some s) =
        jsOr (lastSeg (ri.ref.getD "")) "object") ∧
    (∀ l, truthyS s.ref = false →
      (s.properties.isSome || truthyB s.addProps) = false →
      s.items = none → truthyS s.type = false →
      (∀ l2, s.allOf = some l2 → l2.find? (fun it => truthyS it.ref) = none) →
      s.anyOf = some l →
      getTypeLabel doc (fuel + 1) (some s) =
        jsOr (getTypeLabel doc fuel (l.find? (fun it => it.type != some "null")))
          "unknown") ∧
    (∀ l, truthyS s.ref = false →
      (s.properties.isSome || truthyB s.addProps) = false →
      s.items = none → truthyS s.type = false →
      (∀ l2, s.allOf = some l2 → l2.find? (fun it => truthyS it.ref) = none) →
      s.anyOf = none → s.oneOf = some l →
      getTypeLabel doc (fuel + 1) (some s) =
        jsOr (getTypeLabel doc fuel l.head?) "unknown") ∧
    (truthyS s.ref = false →
      (s.properties.isSome || truthyB s.addProps) = false →
      s.items = none → truthyS s.type = false →
      (∀ l2, s.allOf = some l2 → l2.find? (fun it => truthyS it.ref) = none) →
      s.anyOf = none → s.oneOf = none →
      getTypeLabel doc (fuel + 1) (some s) = "unknown") := by
  refine ⟨?_, ?_, ?_, ?_, ?_, ?_, ?_, ?_⟩
  · intro h
    simp [getTypeLabel, h]
  · intro h1 h2
    simp [getTypeLabel, h1, h2]
  · intro it h1 h2 h3
    simp [getTypeLabel, h1, h2, h3]
  · intro h1 h2 h3 h4
    simp [getTypeLabel, h1, h2, h3, h4]
  · intro l ri h1 h2 h3 h4 h5 h6
    simp [getTypeLabel, h1, h2, h3, h4, h5, h6]
  · intro l h1 h2 h3 h4 hA h5
    cases hao : s.allOf with
    | none => simp [getTypeLabel, h1, h2, h3, h4, hao, h5]
    | some l2 => simp [getTypeLabel, h1, h2, h3, h4, hao, hA l2 hao, h5]
  · intro l h1 h2 h3 h4 hA h5 h6
    cases hao : s.allOf with
    | none => simp [getTypeLabel, h1, h2, h3, h4, hao, h5, h6]
    | some l2 => simp [getTypeLabel, h1, h2, h3, h4, hao, hA l2 hao, h5, h6]
  · intro h1 h2 h3 h4 hA h5 h6
    cases hao : s.allOf with
    | none => simp [getTypeLabel, h1, h2, h3, h4, hao, h5, h6]
    | some l2 => simp [getTypeLabel, h1, h2, h3, h4, hao, hA l2 hao, h5, h6]

theorem c3_type_label_priority_witness :
    truthyS (refTo "Pet").ref = true ∧
    getTypeLabel [] 1 (some (refTo "Pet")) =
      jsOr (lastSeg ((refTo "Pet").ref.getD "")) "unknown" :=
  ⟨rfl, (c3_type_label_priority [] 0 (refTo "Pet")).1 rfl⟩

theorem dedupInto_nodup (l : List EnumValue) :
    ∀ acc : List EnumValue, acc.Nodup → (dedupInto acc l).Nodup := by
  induction l with
  | nil => intro acc h; exact h
  | cons v vs ih =>
    intro acc h
    by_cases hv : v ∈ acc
    · have e : dedupInto acc (v :: vs) = dedupInto acc vs := by
        simp [dedupInto, hv]
      rw [e]
      exact ih acc h
    · have e : dedupInto acc (v :: vs) = dedupInto (acc ++ [v]) vs := by
        simp [dedupInto, hv]
      rw [e]
      refine ih (acc ++ [v]) ?_
      simp [List.nodup_append, h, hv]

theorem foldl_dedup_nodup {α : Type} (f : α → List EnumValue) (l : List α) :
    ∀ acc : List EnumValue, acc.Nodup →
      (l.foldl (fun a it => dedupInto a (f it)) acc).Nodup := by
  induction l with
  | nil => intro acc h; exact h
  | cons x xs ih =>
    intro acc h
    rw [List.foldl_cons]
    exact ih (dedupInto acc (f x)) (dedupInto_nodup (f x) acc h)

/-- C8 counterexample: an array node carrying both its own enum and
enumerated items takes the items enum, not its own enum, so the own-enum
check does not come first. -/
theorem c8_counterexample : getEnumValues [] 3 (some c8s) ≠ [EnumValue.str "b"] := by
  decide

/-- C8 amended: enum value derivation follows the source priority: a
truthy reference dereferences; an array-typed node with items recurses
into the items; then the node's own enum array; then the branches of the
first present keyword among anyOf, oneOf, allOf, gathered in branch order
and de-duplicated preserving first-seen order (the result is then
duplicate-free); otherwise the empty list. -/
theorem c8_enum_value_priority (doc : Doc) (fuel : Nat) (s : Schema) :
    (truthyS s.ref = true →
      getEnumValues doc (fuel + 1) (some s) =
        getEnumValues doc fuel (resolveRef doc (some s))) ∧
    (truthyS s.ref = false → s.type = some "array" → s.items.isSome = true →
      getEnumValues doc (fuel + 1) (some s) = getEnumValues doc fuel s.items) ∧
    (∀ vs, truthyS s.ref = false → ¬ (s.type = some "array" ∧ s.items.isSome) →
      s.enum = some vs → getEnumValues doc (fuel + 1) (some s) = vs) ∧
    (∀ l, truthyS s.ref = false → ¬ (s.type = some "array" ∧ s.items.isSome) →
      s.enum = none → jsOrO s.anyOf (jsOrO s.oneOf s.allOf) = some l →
      getEnumValues doc (fuel + 1) (some s) =
        l.foldl (fun acc it => dedupInto acc (getEnumValues doc fuel (some it))) [] ∧
      (getEnumValues doc (fuel + 1) (some s)).Nodup) ∧
    (truthyS s.ref = false → ¬ (s.type = some "array" ∧ s.items.isSome) →
      s.enum = none → jsOrO s.anyOf (jsOrO s.oneOf s.allOf) = none →
      getEnumValues doc (fuel + 1) (some s) = []) := by
  refine ⟨?_, ?_, ?_, ?_, ?_⟩
  · intro h
    simp [getEnumValues, h]
  · intro h1 h2 h3
    simp [getEnumValues, h1, h2, h3]
  · intro vs h1 h2 h3
    simp [getEnumValues, h1, h2, h3]
  · intro l h1 h2 h3 h4
    have e : getEnumValues doc (fuel + 1) (some s) =
        l.foldl (fun acc it => dedupInto acc (getEnumValues doc fuel (some it))) [] := by
      simp [getEnumValues, h1, h2, h3, h4]
    refine ⟨e, ?_⟩
    rw [e]
    exact foldl_dedup_nodup _ l [] List.nodup_nil
  · intro h1 h2 h3 h4
    simp [getEnumValues, h1, h2, h3, h4]

theorem jsOr_ne_nil (a b : String) (hb : b ≠ "") : jsOr a b ≠ "" := by
  by_cases h : a = ""
  · simp [jsOr, h, hb]
  · simp [jsOr, h]

theorem jsOr_eq_left (a b : String) (h : a ≠ "") : jsOr a b = a := by
  simp [jsOr, h]

theorem truthyS_getD {o : Option String} (h : truthyS o = true) : o.getD "" ≠ "" := by
  cases o with
  | none => simp [truthyS] at h
  | some t =>
    simp only [Option.getD_some]
    simpa [truthyS, bne_iff_ne] using h

theorem getTypeLabel_ne_nil (doc : Doc) : ∀ (fuel : Nat) (os : Option Schema),
    getTypeLabel doc fuel os ≠ "" := by
  intro fuel
  induction fuel with
  | zero =>
    intro os
    cases os with
    | none => simp [getTypeLabel]
    | some s => simp [getTypeLabel]
  | succ f ih =>
    intro os
    cases os with
    | none => simp [getTypeLabel]
    | some s =>
      simp only [getTypeLabel]
      split
      · exact jsOr_ne_nil _ _ (by decide)
      · split
        · simp
        · split
          · exact ih _
          · split
            · next htype => exact truthyS_getD htype
            · split
              · next v heq =>
                rw [Option.bind_eq_some] at heq
                obtain ⟨l, _, hm⟩ := heq
                rw [Option.map_eq_some'] at hm
                obtain ⟨ri, _, hv⟩ := hm
                rw [← hv]
                exact jsOr_ne_nil _ _ (by decide)
              · split
                · exact jsOr_ne_nil _ _ (by decide)
                · split
                  · exact jsOr_ne_nil _ _ (by decide)
                  · simp

theorem getEnumValues_nullS (doc : Doc) : ∀ f, getEnumValues doc f (some nullS) = [] := by
  intro f
  cases f with
  | zero => rfl
  | succ g => rfl

theorem getSchemaProperties_nullS (doc : Doc) :
    ∀ f, getSchemaProperties doc f (some nullS) = none := by
  intro f
  cases f with
  | zero => rfl
  | succ g => rfl

theorem dedupInto_append_of_disjoint (l : List EnumValue) : ∀ acc, l.Nodup →
    (∀ x ∈ l, x ∉ acc) → dedupInto acc l = acc ++ l := by
  induction l with
  | nil => intro acc _ _; simp [dedupInto]
  | cons v vs ih =>
    intro acc hnd hdisj
    obtain ⟨hvn, hnd2⟩ := List.nodup_cons.mp hnd
    have hv : v ∉ acc := hdisj v (List.mem_cons_self v vs)
    have e : dedupInto acc (v :: vs) = dedupInto (acc ++ [v]) vs := by
      simp [dedupInto, hv]
    rw [e, ih (acc ++ [v]) hnd2]
    · simp
    · intro x hx
      simp only [List.mem_append, List.mem_singleton]
      rintro (hxa | rfl)
      · exact hdisj x (List.mem_cons_of_mem v hx) hxa
      · exact hvn hx

/-- C7 counterexample: for the null-typed schema itself, the nullable
union wrapper does not behave like the schema alone: the wrapper's label
is unknown while the schema's own label is null. -/
theorem c7_counterexample :
    getTypeLabel [] 3 (some (nullWrap nullS)) ≠ getTypeLabel [] 3 (some nullS) := by
  decide

/-- C7 amended: for a schema T that is not itself typed null and whose
derived enum list is duplicate-free, the nullable union anyOf of T and the
null type yields the same type label, the same enum values and the same
property map as T alone (the wrapper spending one dereference-free
recursion step). -/
theorem c7_nullable_union (doc : Doc) (fuel : Nat) (T : Schema)
    (hT : T.type ≠ some "null")
    (hNd : (getEnumValues doc fuel (some T)).Nodup) :
    getTypeLabel doc (fuel + 1) (some (nullWrap T)) =
      getTypeLabel doc fuel (some T) ∧
    getEnumValues doc (fuel + 1) (some (nullWrap T)) =
      getEnumValues doc fuel (some T) ∧
    getSchemaProperties doc (fuel + 1) (some (nullWrap T)) =
      getSchemaProperties doc fuel (some T) := by
  have href : truthyS (nullWrap T).ref = false := rfl
  have hprops : (nullWrap T).properties = none := rfl
  have haddp : truthyB (nullWrap T).addProps = false := rfl
  have hitems : (nullWrap T).items = none := rfl
  have htype : (nullWrap T).type = none := rfl
  have hallOf : (nullWrap T).allOf = none := rfl
  have hanyOf : (nullWrap T).anyOf = some [T, nullS] := rfl
  have honeOf : (nullWrap T).oneOf = none := rfl
  have henum : (nullWrap T).enum = none := rfl
  have hTb : (T.type != some "null") = true := bne_iff_ne.mpr hT
  refine ⟨?_, ?_, ?_⟩
  · have hfind : List.find? (fun it => it.type != some "null") [T, nullS] = some T :=
      List.find?_cons_of_pos _ hTb
    simp only [getTypeLabel, href, hprops, haddp, hitems, htype, hallOf, hanyOf, hfind]
    simp only [truthyS, Option.isSome_none, Bool.or_self, Bool.false_eq_true,
      if_false, Option.bind_none]
    exact jsOr_eq_left _ _ (getTypeLabel_ne_nil doc fuel (some T))
  · simp only [getEnumValues, href, hitems, htype, henum, hanyOf, honeOf, hallOf]
    simp only [truthyS, jsOrO, List.foldl_cons, List.foldl_nil]
    rw [getEnumValues_nullS]
    have e0 : dedupInto (dedupInto [] (getEnumValues doc fuel (some T))) [] =
        dedupInto [] (getEnumValues doc fuel (some T)) := rfl
    rw [e0, dedupInto_append_of_disjoint _ [] hNd (by simp)]
    simp
  · simp only [getSchemaProperties, href, hprops, haddp, hitems, htype, hallOf,
      hanyOf, honeOf]
    simp only [truthyS, jsOrO, List.map_cons, List.map_nil]
    rw [getSchemaProperties_nullS]
    cases hPT : getSchemaProperties doc fuel (some T) with
    | none => simp [hPT]
    | some v => simp [hPT]

theorem c7_nullable_union_witness :
    c7T.type ≠ some "null" ∧ (getEnumValues [] 1 (some c7T)).Nodup ∧
    getEnumValues [] 2 (some (nullWrap c7T)) = getEnumValues [] 1 (some c7T) :=
  ⟨by decide, by decide, (c7_nullable_union [] 1 c7T (by decide) (by decide)).2.1⟩

theorem c8_enum_value_priority_witness :
    truthyS c7T.ref = false ∧
    c7T.enum = some [EnumValue.str "a", EnumValue.str "b"] ∧
    getEnumValues [] 1 (some c7T) = [EnumValue.str "a", EnumValue.str "b"] :=
  ⟨rfl, rfl,
    (c8_enum_value_priority [] 0 c7T).2.2.1 [EnumValue.str "a", EnumValue.str "b"]
      rfl (by decide) rfl⟩

theorem getUnionVariants_unionFree (doc : Doc) (S : Schema) (h1 : S.ref = none)
    (h2 : S.anyOf = none) (h3 : S.oneOf = none) :
    ∀ f, getUnionVariants doc f (some S) = [] := by
  intro f
  cases f with
  | zero => rfl
  | succ g => simp [getUnionVariants, h1, h2, h3, truthyS, jsOrO]

theorem getUnionVariants_refX (doc : Doc) (SX : Schema)
    (hX : lookupSchema doc "X" = some SX) (hXr : SX.ref = none)
    (hXa : SX.anyOf = none) (hXo : SX.oneOf = none) :
    ∀ g, getUnionVariants doc g (some (refTo "X")) = [] := by
  intro g
  cases g with
  | zero => rfl
  | succ h =>
    have e : getUnionVariants doc (h + 1) (some (refTo "X")) =
        match resolveRefStrict doc (refTo "X") with
        | some r => getUnionVariants doc h (some r)
        | none => [] := rfl
    rw [e, show resolveRefStrict doc (refTo "X") = lookupSchema doc "X" from rfl, hX]
    exact getUnionVariants_unionFree doc SX hXr hXa hXo h

/-- C2 counterexample: a property whose schema is directly the
array-of-union yields an empty union variant list, not a single grouped
entry: the union flattener reads only anyOf and oneOf at the top level and
never descends into array items there. -/
theorem c2_counterexample :
    buildUnionVariants docXY 5 emptySections arrXY = [] := rfl

/-- C2 amended: when the array-of-union appears as a branch of the
property's union (the row's variant expansion is what applies the
grouping), the variant list is exactly one entry with array-ness false,
type class object, label array of, and a nested group of two variants
labeled after the named schemas X and Y. -/
theorem c2_array_of_union_grouping (f : Nat) (doc : Doc)
    (sections : ReferenceSections) (SX SY : Schema)
    (hX : lookupSchema doc "X" = some SX) (hXr : SX.ref = none)
    (hXa : SX.anyOf = none) (hXo : SX.oneOf = none)
    (hY : lookupSchema doc "Y" = some SY) (hYr : SY.ref = none)
    (hYa : SY.anyOf = none) (hYo : SY.oneOf = none) :
    ∃ sid1 sid2 tc1 tc2,
      buildUnionVariants doc (f + 1) sections propXY =
        [ParameterUnionVariant.mk "array of" false none "object"
          (some [ParameterUnionVariant.mk "X" false sid1 tc1 none,
                 ParameterUnionVariant.mk "Y" false sid2 tc2 none])] := by
  have h1 : ∀ g, getUnionVariants doc g (some arrXY) = [] :=
    getUnionVariants_unionFree doc arrXY rfl rfl rfl
  have h2 : ∀ g, getUnionVariants doc g (some (refTo "X")) = [] :=
    getUnionVariants_refX doc SX hX hXr hXa hXo
  have hGV : getUnionVariants doc (f + 1) (some propXY) = [arrXY] := by
    have e : getUnionVariants doc (f + 1) (some propXY) =
        (if (getUnionVariants doc f (some arrXY)).length > 0 then
          [] ++ getUnionVariants doc f (some arrXY) else [] ++ [arrXY]) := rfl
    rw [e, h1 f]
    simp
  have h3 : ∀ g, getUnionVariants doc g (some (refTo "Y")) = [] := by
    intro g
    cases g with
    | zero => rfl
    | succ h =>
      have e : getUnionVariants doc (h + 1) (some (refTo "Y")) =
          match resolveRefStrict doc (refTo "Y") with
          | some r => getUnionVariants doc h (some r)
          | none => [] := rfl
      rw [e, show resolveRefStrict doc (refTo "Y") = lookupSchema doc "Y" from rfl, hY]
      exact getUnionVariants_unionFree doc SY hYr hYa hYo h
  have hIV : getUnionVariants doc (f + 1) (some itemsXY) = [refTo "X", refTo "Y"] := by
    have e : getUnionVariants doc (f + 1) (some itemsXY) =
        (let a1 := if (getUnionVariants doc f (some (refTo "X"))).length > 0
            then [] ++ getUnionVariants doc f (some (refTo "X")) else [] ++ [refTo "X"]
         if (getUnionVariants doc f (some (refTo "Y"))).length > 0
            then a1 ++ getUnionVariants doc f (some (refTo "Y")) else a1 ++ [refTo "Y"]) := rfl
    rw [e, h2 f, h3 f]
    simp
  have hRNd : ∀ g, getRefNameDeep (g + 1) (some arrXY) = none := by
    intro g
    have e : getRefNameDeep (g + 1) (some arrXY) = getRefNameDeep g (some itemsXY) := rfl
    rw [e]
    cases g with
    | zero => rfl
    | succ k => rfl
  refine ⟨(byNameGet sections.byName "X").map SectionRef.id,
          (byNameGet sections.byName "Y").map SectionRef.id,
          getTypeClass doc (f + 1) (some (refTo "X")),
          getTypeClass doc (f + 1) (some (refTo "Y")), ?_⟩
  have eB : buildUnionVariants doc (f + 1) sections propXY =
      ((getUnionVariants doc (f + 1) (some propXY)).map
        (fun v => expandUnionVariantEntries doc (f + 1) sections v)).flatten.map
        (fun e =>
          let refName := getRefNameDeep (f + 1) (some e.schema)
          let sectionId :=
            if truthyS refName then
              (byNameGet sections.byName (refName.getD "")).map SectionRef.id
            else none
          ParameterUnionVariant.mk
            (e.labelOverride.getD (getVariantLabel doc (f + 1) e.schema))
            e.array sectionId
            (e.typeClassOverride.getD (getTypeClass doc (f + 1) (some e.schema)))
            e.groupVariants) := rfl
  have eEX : expandUnionVariantEntries doc (f + 1) sections arrXY =
      (if (getUnionVariants doc (f + 1) (some itemsXY)).length > 0 then
        [⟨arrXY, false, some "array of", some "object",
          some ((getUnionVariants doc (f + 1) (some itemsXY)).map (fun v =>
            let refName := getRefNameDeep (f + 1) (some v)
            let sectionId :=
              if truthyS refName then
                (byNameGet sections.byName (refName.getD "")).map SectionRef.id
              else none
            ParameterUnionVariant.mk (getVariantLabel doc (f + 1) v) false sectionId
              (getTypeClass doc (f + 1) (some v)) none))⟩]
      else [⟨arrXY, true, none, none, none⟩]) := rfl
  rw [eB, hGV]
  simp only [List.map_cons, List.map_nil, List.flatten, eEX, hIV]
  have hrnX : getRefNameDeep (f + 1) (some (refTo "X")) = some "X" := rfl
  have hrnY : getRefNameDeep (f + 1) (some (refTo "Y")) = some "Y" := rfl
  have hlabX : getVariantLabel doc (f + 1) (refTo "X") = "X" := rfl
  have hlabY : getVariantLabel doc (f + 1) (refTo "Y") = "Y" := rfl
  have htX : truthyS (some "X") = true := rfl
  have htY : truthyS (some "Y") = true := rfl
  have htn : truthyS none = false := rfl
  simp [hrnX, hrnY, hlabX, hlabY, hRNd f, htX, htY, htn]

theorem collect_keys_nodup (doc : Doc) : ∀ (fuel : Nat) (os : Option Schema) (acc : Doc),
    (acc.map Prod.fst).Nodup → ((collectRefSchemas doc fuel os acc).map Prod.fst).Nodup := by
  intro fuel
  induction fuel with
  | zero =>
    intro os acc h
    cases os with
    | none => exact h
    | some s => exact h
  | succ f ih =>
    intro os acc h
    cases os with
    | none => exact h
    | some s =>
      have step : ∀ {α : Type} (g : α → Option Schema) (l : List α) (a : Doc),
          (a.map Prod.fst).Nodup →
          ((l.foldl (fun a2 x => collectRefSchemas doc f (g x) a2) a).map Prod.fst).Nodup := by
        intro α g l
        induction l with
        | nil => intro a ha; exact ha
        | cons v vs ihl =>
          intro a ha
          rw [List.foldl_cons]
          exact ihl _ (ih (g v) a ha)
      simp only [collectRefSchemas]
      split
      · split
        · next hc =>
          refine ih _ _ ?_
          simp only [List.map_append, List.map_cons, List.map_nil]
          rw [List.nodup_append]
          refine ⟨h, List.nodup_singleton _, ?_⟩
          intro a ha
          simp only [List.mem_singleton]
          intro heq
          obtain ⟨p, hp, hp1⟩ := List.mem_map.mp ha
          have hall := List.all_eq_true.mp hc.2 p hp
          rw [hp1, heq] at hall
          simp at hall
        · exact h
      · have sp : ∀ a : Doc, (a.map Prod.fst).Nodup →
            (((match s.properties with
              | some l => l.foldl
                  (fun a2 (p : String × Schema) => collectRefSchemas doc f (some p.2) a2) a
              | none => a)).map Prod.fst).Nodup := by
          intro a ha
          cases s.properties with
          | none => exact ha
          | some l => exact step (fun (p : String × Schema) => some p.2) l a ha
        have sit : ∀ a : Doc, (a.map Prod.fst).Nodup →
            (((match s.items with
              | some it => collectRefSchemas doc f (some it) a
              | none => a)).map Prod.fst).Nodup := by
          intro a ha
          cases s.items with
          | none => exact ha
          | some it => exact ih (some it) a ha
        have sl : ∀ (ol : Option (List Schema)) (a : Doc), (a.map Prod.fst).Nodup →
            (((match ol with
              | some l => l.foldl (fun a2 v => collectRefSchemas doc f (some v) a2) a
              | none => a)).map Prod.fst).Nodup := by
          intro ol a ha
          cases ol with
          | none => exact ha
          | some l => exact step some l a ha
        exact sl s.allOf _ (sl s.oneOf _ (sl s.anyOf _ (sit _ (sp _ h))))


theorem collect_none (doc : Doc) : ∀ (f : Nat) (acc : Doc),
    collectRefSchemas doc f none acc = acc := by
  intro f acc
  cases f with
  | zero => rfl
  | succ f => rfl

theorem schemaSize_pos (s : Schema) : 1 ≤ schemaSize s := by
  cases s
  simp only [schemaSize]
  omega

theorem schemaSize_items_lt {s it : Schema} (h : s.items = some it) :
    schemaSize it < schemaSize s := by
  cases s with
  | mk r t d e p rq i ap ao oo al xi xu xe =>
    simp only [Schema.items] at h
    subst h
    simp only [schemaSize, osSchemaSize]
    omega

theorem pairsSize_mem {l : List (String × Schema)} {x : String × Schema} (hm : x ∈ l) :
    schemaSize x.2 + 1 ≤ pairsSize l := by
  induction l with
  | nil => cases hm
  | cons q rest ih =>
    rcases List.mem_cons.mp hm with rfl | hm2
    · cases x with
      | mk a b => simp only [pairsSize]; omega
    · have := ih hm2
      cases q with
      | mk a b => simp only [pairsSize]; omega

theorem listSize_mem {l : List Schema} {x : Schema} (hm : x ∈ l) :
    schemaSize x + 1 ≤ listSize l := by
  induction l with
  | nil => cases hm
  | cons q rest ih =>
    rcases List.mem_cons.mp hm with rfl | hm2
    · simp only [listSize]; omega
    · have := ih hm2
      simp only [listSize]; omega

theorem schemaSize_props_lt {s : Schema} {pl : List (String × Schema)} {x : String × Schema}
    (h : s.properties = some pl) (hm : x ∈ pl) : schemaSize x.2 < schemaSize s := by
  have h1 := pairsSize_mem hm
  cases s with
  | mk r t d e p rq i ap ao oo al xi xu xe =>
    simp only [Schema.properties] at h
    subst h
    simp only [schemaSize, plSize]
    omega

theorem schemaSize_anyOf_lt {s x : Schema} {l : List Schema}
    (h : s.anyOf = some l) (hm : x ∈ l) : schemaSize x < schemaSize s := by
  have h1 := listSize_mem hm
  cases s with
  | mk r t d e p rq i ap ao oo al xi xu xe =>
    simp only [Schema.anyOf] at h
    subst h
    simp only [schemaSize, olSize]
    omega

theorem schemaSize_oneOf_lt {s x : Schema} {l : List Schema}
    (h : s.oneOf = some l) (hm : x ∈ l) : schemaSize x < schemaSize s := by
  have h1 := listSize_mem hm
  cases s with
  | mk r t d e p rq i ap ao oo al xi xu xe =>
    simp only [Schema.oneOf] at h
    subst h
    simp only [schemaSize, olSize]
    omega

theorem schemaSize_allOf_lt {s x : Schema} {l : List Schema}
    (h : s.allOf = some l) (hm : x ∈ l) : schemaSize x < schemaSize s := by
  have h1 := listSize_mem hm
  cases s with
  | mk r t d e p rq i ap ao oo al xi xu xe =>
    simp only [Schema.allOf] at h
    subst h
    simp only [schemaSize, olSize]
    omega

theorem schemaSize_le_maxSchemaSize {doc : Doc} {x : String × Schema} (hm : x ∈ doc) :
    schemaSize x.2 ≤ maxSchemaSize doc := by
  induction doc with
  | nil => cases hm
  | cons q d ih =>
    rcases List.mem_cons.mp hm with rfl | hm2
    · exact le_max_left _ _
    · exact le_trans (ih hm2) (le_max_right _ _)

theorem lookup_mem_keys {doc : Doc} {k : String} {v : Schema}
    (h : lookupSchema doc k = some v) : k ∈ doc.map Prod.fst := by
  unfold lookupSchema at h
  cases hf : doc.find? (fun p => p.1 == k) with
  | none => rw [hf] at h; cases h
  | some q =>
    rw [hf] at h
    have hq := List.find?_some hf
    have hmem := List.mem_of_find?_eq_some hf
    have hk : q.1 = k := by simpa using hq
    exact List.mem_map.mpr ⟨q, hmem, hk⟩

theorem lookup_size_le {doc : Doc} {k : String} {v : Schema}
    (h : lookupSchema doc k = some v) : schemaSize v ≤ maxSchemaSize doc := by
  unfold lookupSchema at h
  cases hf : doc.find? (fun p => p.1 == k) with
  | none => rw [hf] at h; cases h
  | some q =>
    rw [hf] at h
    have hv : q.2 = v := by simpa using h
    rw [← hv]
    exact schemaSize_le_maxSchemaSize (List.mem_of_find?_eq_some hf)

theorem filter_length_mono {α : Type} {p q : α → Bool} (h : ∀ x, p x = true → q x = true) :
    ∀ l : List α, (l.filter p).length ≤ (l.filter q).length := by
  intro l
  induction l with
  | nil => simp
  | cons x xs ih =>
    by_cases hp : p x = true
    · rw [List.filter_cons_of_pos hp, List.filter_cons_of_pos (h x hp)]
      simpa using ih
    · rw [List.filter_cons_of_neg (by simpa using hp)]
      by_cases hq : q x = true
      · rw [List.filter_cons_of_pos hq]
        exact le_trans ih (Nat.le_succ _)
      · rw [List.filter_cons_of_neg (by simpa using hq)]
        exact ih

theorem filter_length_lt {α : Type} {p q : α → Bool} {x0 : α}
    (h : ∀ x, p x = true → q x = true) (hp0 : p x0 = false) (hq0 : q x0 = true) :
    ∀ l : List α, x0 ∈ l → (l.filter p).length < (l.filter q).length := by
  intro l
  induction l with
  | nil => intro h0; cases h0
  | cons x xs ih =>
    intro h0
    rcases List.mem_cons.mp h0 with rfl | hmem
    · rw [List.filter_cons_of_neg (by simp [hp0]), List.filter_cons_of_pos hq0]
      simpa using Nat.lt_succ_of_le (filter_length_mono h xs)
    · by_cases hp : p x = true
      · rw [List.filter_cons_of_pos hp, List.filter_cons_of_pos (h x hp)]
        simpa using ih hmem
      · rw [List.filter_cons_of_neg (by simpa using hp)]
        by_cases hq : q x = true
        · rw [List.filter_cons_of_pos hq]
          exact Nat.lt_succ_of_lt (ih hmem)
        · rw [List.filter_cons_of_neg (by simpa using hq)]
          exact ih hmem

theorem remKeys_le {doc acc1 acc2 : Doc}
    (h : ∀ k, k ∈ acc1.map Prod.fst → k ∈ acc2.map Prod.fst) :
    remKeys doc acc2 ≤ remKeys doc acc1 := by
  apply filter_length_mono
  intro k hk
  simp only [decide_eq_true_eq] at hk ⊢
  intro hmem
  exact hk (h k hmem)

theorem remKeys_insert_lt {doc acc : Doc} {k : String} {v : Schema}
    (hk : k ∈ doc.map Prod.fst) (hnk : k ∉ acc.map Prod.fst) :
    remKeys doc (acc ++ [(k, v)]) < remKeys doc acc := by
  apply filter_length_lt _ _ _ _ hk
  · intro x hx
    simp only [decide_eq_true_eq, List.map_append] at hx ⊢
    intro hmem
    exact hx (List.mem_append_left _ hmem)
  · simp
  · simpa using hnk

theorem needed_ge_two (doc : Doc) (os : Option Schema) (acc : Doc) :
    2 ≤ needed doc os acc := by
  have h2 : (maxSchemaSize doc + 2) ≤ (remKeys doc acc + 1) * (maxSchemaSize doc + 2) :=
    Nat.le_mul_of_pos_left _ (by omega)
  unfold needed
  omega

theorem needed_ge_size (doc : Doc) (s : Schema) (acc : Doc) {v : Schema}
    (hszv : schemaSize v ≤ maxSchemaSize doc) :
    schemaSize v + 3 ≤ needed doc (some s) acc := by
  have h4 : 1 ≤ schemaSize s := schemaSize_pos s
  have h2 : (maxSchemaSize doc + 2) ≤ (remKeys doc acc + 1) * (maxSchemaSize doc + 2) :=
    Nat.le_mul_of_pos_left _ (by omega)
  unfold needed
  have h5 : osSize (some s) = schemaSize s := rfl
  omega

theorem needed_le_struct (doc : Doc) {acc acc2 : Doc} {s : Schema} {os2 : Option Schema}
    (hsup : ∀ k, k ∈ acc.map Prod.fst → k ∈ acc2.map Prod.fst)
    (hsz : osSize os2 < schemaSize s) :
    needed doc os2 acc2 + 1 ≤ needed doc (some s) acc := by
  have h1 : remKeys doc acc2 ≤ remKeys doc acc := remKeys_le hsup
  have h2 : (remKeys doc acc2 + 1) * (maxSchemaSize doc + 2) ≤
      (remKeys doc acc + 1) * (maxSchemaSize doc + 2) :=
    Nat.mul_le_mul_right _ (by omega)
  unfold needed
  have h5 : osSize (some s) = schemaSize s := rfl
  omega

theorem needed_le_ref (doc : Doc) {acc : Doc} {s v : Schema} {rn : String}
    (hmemk : rn ∈ doc.map Prod.fst) (hnot : rn ∉ acc.map Prod.fst)
    (hszv : schemaSize v ≤ maxSchemaSize doc) :
    needed doc (some v) (acc ++ [(rn, v)]) + 1 ≤ needed doc (some s) acc := by
  have h1 : remKeys doc (acc ++ [(rn, v)]) < remKeys doc acc := remKeys_insert_lt hmemk hnot
  have h2 : (remKeys doc (acc ++ [(rn, v)]) + 1) * (maxSchemaSize doc + 2) ≤
      remKeys doc acc * (maxSchemaSize doc + 2) :=
    Nat.mul_le_mul_right _ (by omega)
  have h3 : (remKeys doc acc + 1) * (maxSchemaSize doc + 2) =
      remKeys doc acc * (maxSchemaSize doc + 2) + (maxSchemaSize doc + 2) := by ring
  have h4 : 1 ≤ schemaSize s := schemaSize_pos s
  unfold needed
  have h5 : osSize (some s) = schemaSize s := rfl
  have h6 : osSize (some v) = schemaSize v := rfl
  omega

theorem all_ne_not_mem {acc : Doc} {rn : String}
    (h : acc.all (fun p => p.1 != rn) = true) : rn ∉ acc.map Prod.fst := by
  intro hmem
  obtain ⟨p, hp, hp1⟩ := List.mem_map.mp hmem
  have hall := List.all_eq_true.mp h p hp
  rw [hp1] at hall
  simp at hall

/-- A reference node whose referenced name is already recorded makes the
collector return the accumulator unchanged, for every fuel. -/
theorem collect_ref_stop (doc : Doc) {s : Schema} {acc : Doc}
    (href : truthyS s.ref = true)
    (hmem : lastSeg (s.ref.getD "") ∈ acc.map Prod.fst) :
    ∀ f, collectRefSchemas doc f (some s) acc = acc := by
  intro f
  cases f with
  | zero => rfl
  | succ f =>
    simp only [collectRefSchemas]
    rw [if_pos href, if_neg]
    intro hc
    obtain ⟨p, hp, hp1⟩ := List.mem_map.mp hmem
    have hall := List.all_eq_true.mp hc.2 p hp
    rw [hp1] at hall
    simp at hall

theorem foldl_extends {α : Type} (step : Doc → α → Doc)
    (hstep : ∀ (a : Doc) (x : α), ∃ t, step a x = a ++ t) :
    ∀ (l : List α) (acc : Doc), ∃ t, l.foldl step acc = acc ++ t := by
  intro l
  induction l with
  | nil => intro acc; exact ⟨[], by simp⟩
  | cons x xs ih =>
    intro acc
    obtain ⟨t1, h1⟩ := hstep acc x
    obtain ⟨t2, h2⟩ := ih (acc ++ t1)
    refine ⟨t1 ++ t2, ?_⟩
    rw [List.foldl_cons, h1, h2, List.append_assoc]

theorem extends_trans {A B C : Doc} (h1 : ∃ t, B = A ++ t) (h2 : ∃ t, C = B ++ t) :
    ∃ t, C = A ++ t := by
  obtain ⟨t1, e1⟩ := h1
  obtain ⟨t2, e2⟩ := h2
  exact ⟨t1 ++ t2, by rw [e2, e1, List.append_assoc]⟩

/-- The collector only ever appends to the accumulator. -/
theorem collect_extends (doc : Doc) : ∀ (f : Nat) (os : Option Schema) (acc : Doc),
    ∃ t, collectRefSchemas doc f os acc = acc ++ t := by
  intro f
  induction f with
  | zero =>
    intro os acc
    cases os with
    | none => exact ⟨[], by simp [collect_none]⟩
    | some s => exact ⟨[], by simp [collectRefSchemas]⟩
  | succ f ih =>
    intro os acc
    cases os with
    | none => exact ⟨[], by simp [collect_none]⟩
    | some s =>
      by_cases href : truthyS s.ref = true
      · simp only [collectRefSchemas]
        rw [if_pos href]
        by_cases hc : (lastSeg (s.ref.getD "") ≠ "" ∧
            acc.all (fun p => p.1 != lastSeg (s.ref.getD "")) = true)
        · rw [if_pos hc]
          refine extends_trans (B := acc ++ [(lastSeg (s.ref.getD ""),
            (resolveRef doc (some s)).getD s)]) ⟨_, rfl⟩ ?_
          exact ih _ _
        · rw [if_neg hc]
          exact ⟨[], by simp⟩
      · simp only [collectRefSchemas]
        rw [if_neg href]
        have hstageP : ∀ a1 : Doc, ∃ t, (match s.properties with
            | some l => l.foldl
                (fun a3 (p : String × Schema) => collectRefSchemas doc f (some p.2) a3) a1
            | none => a1) = a1 ++ t := by
          intro a1
          cases s.properties with
          | none => exact ⟨[], by simp⟩
          | some pl => exact foldl_extends _ (fun a x => ih (some x.2) a) pl a1
        have hstageI : ∀ a1 : Doc, ∃ t, (match s.items with
            | some it => collectRefSchemas doc f (some it) a1
            | none => a1) = a1 ++ t := by
          intro a1
          cases s.items with
          | none => exact ⟨[], by simp⟩
          | some it => exact ih (some it) a1
        have hstageBr : ∀ (ol : Option (List Schema)) (a1 : Doc), ∃ t, (match ol with
            | some l => l.foldl (fun a3 v => collectRefSchemas doc f (some v) a3) a1
            | none => a1) = a1 ++ t := by
          intro ol a1
          cases ol with
          | none => exact ⟨[], by simp⟩
          | some l => exact foldl_extends _ (fun a x => ih (some x) a) l a1
        exact extends_trans (extends_trans (extends_trans (extends_trans
          (hstageP acc) (hstageI _)) (hstageBr s.anyOf _)) (hstageBr s.oneOf _))
          (hstageBr s.allOf _)

/-- Keys already recorded stay recorded. -/
theorem collect_keys_superset (doc : Doc) (f : Nat) (os : Option Schema) (acc : Doc)
    {k : String} (hk : k ∈ acc.map Prod.fst) :
    k ∈ (collectRefSchemas doc f os acc).map Prod.fst := by
  obtain ⟨t, ht⟩ := collect_extends doc f os acc
  rw [ht, List.map_append]
  exact List.mem_append_left _ hk

theorem collect_foldl_pair (doc : Doc) (f g : Nat) {α : Type} (gf : α → Option Schema) :
    ∀ (l : List α) (acc2 : Doc),
      (∀ x ∈ l, ∀ acc3 : Doc, (∀ k, k ∈ acc2.map Prod.fst → k ∈ acc3.map Prod.fst) →
        collectRefSchemas doc f (gf x) acc3 = collectRefSchemas doc g (gf x) acc3) →
      (l.foldl (fun a3 x => collectRefSchemas doc f (gf x) a3) acc2 =
       l.foldl (fun a3 x => collectRefSchemas doc g (gf x) a3) acc2) ∧
      (∀ k, k ∈ acc2.map Prod.fst →
        k ∈ (l.foldl (fun a3 x => collectRefSchemas doc f (gf x) a3) acc2).map Prod.fst) := by
  intro l
  induction l with
  | nil => intro acc2 H; exact ⟨rfl, fun k hk => hk⟩
  | cons x xs ih =>
    intro acc2 H
    have hstep := H x (List.mem_cons_self _ _) acc2 (fun k hk => hk)
    have hsup1 : ∀ k, k ∈ acc2.map Prod.fst →
        k ∈ (collectRefSchemas doc f (gf x) acc2).map Prod.fst :=
      fun k hk => collect_keys_superset doc f (gf x) acc2 hk
    have H2 : ∀ y ∈ xs, ∀ acc3 : Doc,
        (∀ k, k ∈ (collectRefSchemas doc f (gf x) acc2).map Prod.fst →
          k ∈ acc3.map Prod.fst) →
        collectRefSchemas doc f (gf y) acc3 = collectRefSchemas doc g (gf y) acc3 :=
      fun y hy acc3 hsup3 =>
        H y (List.mem_cons_of_mem _ hy) acc3 (fun k hk => hsup3 k (hsup1 k hk))
    obtain ⟨heq, hgrow⟩ := ih (collectRefSchemas doc f (gf x) acc2) H2
    constructor
    · rw [List.foldl_cons, List.foldl_cons, ← hstep]
      exact heq
    · intro k hk
      rw [List.foldl_cons]
      exact hgrow k (hsup1 k hk)

/-- Fuel irrelevance: beyond the computed bound, the collection result no
longer depends on the fuel — the collection has terminated. -/
theorem collect_fuel_stable (doc : Doc) : ∀ (f : Nat) (os : Option Schema) (acc : Doc) (g : Nat),
    needed doc os acc ≤ f → needed doc os acc ≤ g →
    collectRefSchemas doc f os acc = collectRefSchemas doc g os acc := by
  intro f
  induction f with
  | zero =>
    intro os acc g hf hg
    have := needed_ge_two doc os acc
    omega
  | succ f ih =>
    intro os acc g hf hg
    cases os with
    | none => rw [collect_none, collect_none]
    | some s =>
      have hg2 : 2 ≤ g := le_trans (needed_ge_two doc (some s) acc) hg
      obtain ⟨g1, rfl⟩ : ∃ g1, g = g1 + 1 := ⟨g - 1, by omega⟩
      by_cases href : truthyS s.ref = true
      · simp only [collectRefSchemas]
        rw [if_pos href, if_pos href]
        by_cases hc : (lastSeg (s.ref.getD "") ≠ "" ∧
            acc.all (fun p => p.1 != lastSeg (s.ref.getD "")) = true)
        · rw [if_pos hc, if_pos hc]
          have hrv : (resolveRef doc (some s)).getD s =
              (getSchemaFromRef doc (s.ref.getD "")).getD s := by
            simp [resolveRef, href]
          rw [hrv]
          cases hlk : getSchemaFromRef doc (s.ref.getD "") with
          | none =>
            simp only [Option.getD_none]
            rw [collect_ref_stop doc href (by simp) f,
                collect_ref_stop doc href (by simp) g1]
          | some v =>
            simp only [Option.getD_some]
            have hlk2 : lookupSchema doc (lastSeg (s.ref.getD "")) = some v := by
              unfold getSchemaFromRef at hlk
              rw [if_neg hc.1] at hlk
              exact hlk
            have hb := needed_le_ref doc (s := s) (lookup_mem_keys hlk2)
              (all_ne_not_mem hc.2) (lookup_size_le hlk2)
            exact ih _ _ g1 (by omega) (by omega)
        · rw [if_neg hc, if_neg hc]
      · simp only [collectRefSchemas]
        rw [if_neg href, if_neg href]
        have hsub : ∀ (os2 : Option Schema) (acc2 : Doc),
            (∀ k, k ∈ acc.map Prod.fst → k ∈ acc2.map Prod.fst) →
            osSize os2 < schemaSize s →
            collectRefSchemas doc f os2 acc2 = collectRefSchemas doc g1 os2 acc2 := by
          intro os2 acc2 hsup hsz
          have hb := needed_le_struct doc (s := s) hsup hsz
          exact ih os2 acc2 g1 (by omega) (by omega)
        have stageP : ∀ a1 a2 : Doc, a1 = a2 →
            (∀ k, k ∈ acc.map Prod.fst → k ∈ a1.map Prod.fst) →
            ((match s.properties with
              | some l => l.foldl
                  (fun a3 (p : String × Schema) => collectRefSchemas doc f (some p.2) a3) a1
              | none => a1) =
             (match s.properties with
              | some l => l.foldl
                  (fun a3 (p : String × Schema) => collectRefSchemas doc g1 (some p.2) a3) a2
              | none => a2)) ∧
            (∀ k, k ∈ acc.map Prod.fst →
              k ∈ ((match s.properties with
                | some l => l.foldl
                    (fun a3 (p : String × Schema) => collectRefSchemas doc f (some p.2) a3) a1
                | none => a1)).map Prod.fst) := by
          intro a1 a2 heq hsup
          subst heq
          cases hp : s.properties with
          | none => exact ⟨rfl, hsup⟩
          | some pl =>
            obtain ⟨heq2, hgrow⟩ := collect_foldl_pair doc f g1
              (fun p : String × Schema => some p.2) pl a1
              (fun x hx acc3 hsup3 =>
                hsub (some x.2) acc3 (fun k hk => hsup3 k (hsup k hk))
                  (schemaSize_props_lt hp hx))
            exact ⟨heq2, fun k hk => hgrow k (hsup k hk)⟩
        have stageI : ∀ a1 a2 : Doc, a1 = a2 →
            (∀ k, k ∈ acc.map Prod.fst → k ∈ a1.map Prod.fst) →
            ((match s.items with
              | some it => collectRefSchemas doc f (some it) a1
              | none => a1) =
             (match s.items with
              | some it => collectRefSchemas doc g1 (some it) a2
              | none => a2)) ∧
            (∀ k, k ∈ acc.map Prod.fst →
              k ∈ ((match s.items with
                | some it => collectRefSchemas doc f (some it) a1
                | none => a1)).map Prod.fst) := by
          intro a1 a2 heq hsup
          subst heq
          cases hp : s.items with
          | none => exact ⟨rfl, hsup⟩
          | some it =>
            refine ⟨hsub (some it) a1 hsup (schemaSize_items_lt hp), ?_⟩
            intro k hk
            exact collect_keys_superset doc f (some it) a1 (hsup k hk)
        have stageBr : ∀ (ol : Option (List Schema)),
            (∀ l2, ol = some l2 → ∀ x ∈ l2, schemaSize x < schemaSize s) →
            ∀ a1 a2 : Doc, a1 = a2 →
            (∀ k, k ∈ acc.map Prod.fst → k ∈ a1.map Prod.fst) →
            ((match ol with
              | some l => l.foldl (fun a3 v => collectRefSchemas doc f (some v) a3) a1
              | none => a1) =
             (match ol with
              | some l => l.foldl (fun a3 v => collectRefSchemas doc g1 (some v) a3) a2
              | none => a2)) ∧
            (∀ k, k ∈ acc.map Prod.fst →
              k ∈ ((match ol with
                | some l => l.foldl (fun a3 v => collectRefSchemas doc f (some v) a3) a1
                | none => a1)).map Prod.fst) := by
          intro ol hsz a1 a2 heq hsup
          subst heq
          cases ol with
          | none => exact ⟨rfl, hsup⟩
          | some l =>
            obtain ⟨heq2, hgrow⟩ := collect_foldl_pair doc f g1 some l a1
              (fun x hx acc3 hsup3 =>
                hsub (some x) acc3 (fun k hk => hsup3 k (hsup k hk)) (hsz l rfl x hx))
            exact ⟨heq2, fun k hk => hgrow k (hsup k hk)⟩
        obtain ⟨e1, g1p⟩ := stageP acc acc rfl (fun k hk => hk)
        obtain ⟨e2, g2p⟩ := stageI _ _ e1 g1p
        obtain ⟨e3, g3p⟩ := stageBr s.anyOf (fun l2 he x hx => schemaSize_anyOf_lt he hx)
          _ _ e2 g2p
        obtain ⟨e4, g4p⟩ := stageBr s.oneOf (fun l2 he x hx => schemaSize_oneOf_lt he hx)
          _ _ e3 g3p
        obtain ⟨e5, g5p⟩ := stageBr s.allOf (fun l2 he x hx => schemaSize_allOf_lt he hx)
          _ _ e4 g4p
        exact e5

theorem foldl_keys_superset (doc : Doc) (f : Nat) {α : Type} (gf : α → Option Schema)
    (l : List α) (a1 : Doc) {k : String} (hk : k ∈ a1.map Prod.fst) :
    k ∈ (l.foldl (fun a3 x => collectRefSchemas doc f (gf x) a3) a1).map Prod.fst := by
  obtain ⟨t, htx⟩ := foldl_extends _ (fun a x => collect_extends doc f (gf x) a) l a1
  rw [htx, List.map_append]
  exact List.mem_append_left _ hk

/-- Walking a non-reference node one of whose properties is a reference
with final segment target records target, for any fuel of at least two. -/
theorem collect_walk_inserts (doc : Doc) {S r : Schema} {pl : List (String × Schema)}
    {pn target : String}
    (hSr : truthyS S.ref = false) (hpl : S.properties = some pl) (hm : (pn, r) ∈ pl)
    (hr : truthyS r.ref = true) (hseg : lastSeg (r.ref.getD "") = target)
    (ht : target ≠ "") :
    ∀ (f : Nat) (acc : Doc), 2 ≤ f →
      target ∈ (collectRefSchemas doc f (some S) acc).map Prod.fst := by
  intro f acc hf
  obtain ⟨f1, rfl⟩ : ∃ f1, f = f1 + 1 := ⟨f - 1, by omega⟩
  have hf1 : 1 ≤ f1 := by omega
  have hstep : ∀ a1 : Doc, target ∈ (collectRefSchemas doc f1 (some r) a1).map Prod.fst := by
    intro a1
    obtain ⟨f2, rfl⟩ : ∃ f2, f1 = f2 + 1 := ⟨f1 - 1, by omega⟩
    by_cases hmem : target ∈ a1.map Prod.fst
    · exact collect_keys_superset doc _ _ _ hmem
    · have hall : a1.all (fun p => p.1 != target) = true := by
        rw [List.all_eq_true]
        intro p hp
        simp only [bne_iff_ne, ne_eq]
        intro hpe
        exact hmem (List.mem_map.mpr ⟨p, hp, hpe⟩)
      simp only [collectRefSchemas]
      rw [if_pos hr, hseg, if_pos ⟨ht, hall⟩]
      apply collect_keys_superset
      simp
  simp only [collectRefSchemas]
  rw [if_neg (by simp [hSr])]
  have liftI : ∀ (a1 : Doc) {k : String}, k ∈ a1.map Prod.fst →
      k ∈ ((match S.items with
        | some it => collectRefSchemas doc f1 (some it) a1
        | none => a1)).map Prod.fst := by
    intro a1 k h1
    cases S.items with
    | none => exact h1
    | some it => exact collect_keys_superset doc f1 (some it) a1 h1
  have liftBr : ∀ (ol : Option (List Schema)) (a1 : Doc) {k : String},
      k ∈ a1.map Prod.fst →
      k ∈ ((match ol with
        | some l => l.foldl (fun a3 v => collectRefSchemas doc f1 (some v) a3) a1
        | none => a1)).map Prod.fst := by
    intro ol a1 k h1
    cases ol with
    | none => exact h1
    | some l => exact foldl_keys_superset doc f1 some l a1 h1
  have hPmem : target ∈ ((match S.properties with
      | some l => l.foldl
          (fun a3 (p : String × Schema) => collectRefSchemas doc f1 (some p.2) a3) acc
      | none => acc)).map Prod.fst := by
    obtain ⟨l1, l2, hple⟩ := List.append_of_mem hm
    have em : (match S.properties with
        | some l => l.foldl
            (fun a3 (p : String × Schema) => collectRefSchemas doc f1 (some p.2) a3) acc
        | none => acc) =
        (l1 ++ (pn, r) :: l2).foldl
          (fun a3 (p : String × Schema) => collectRefSchemas doc f1 (some p.2) a3) acc := by
      rw [hpl, hple]
    rw [em, List.foldl_append, List.foldl_cons]
    exact foldl_keys_superset doc f1 _ l2 _ (hstep _)
  exact liftBr S.allOf _ (liftBr S.oneOf _ (liftBr S.anyOf _ (liftI _ hPmem)))

/-- Whenever the collection newly records the name b, naming a schema B
one of whose properties refers back to the name a, it also records a:
recording b descends into B before returning far enough to see the back
reference. -/
theorem collect_first_sees (doc : Doc) {a b qn : String} {B rBA : Schema}
    {plB : List (String × Schema)}
    (hB : lookupSchema doc b = some B) (hBr : truthyS B.ref = false)
    (hBpl : B.properties = some plB) (hmB : (qn, rBA) ∈ plB)
    (hrBA : truthyS rBA.ref = true) (hsBA : lastSeg (rBA.ref.getD "") = a)
    (hane : a ≠ "") (hbne : b ≠ "") :
    ∀ (f : Nat) (os : Option Schema) (acc : Doc),
      needed doc os acc ≤ f →
      b ∈ (collectRefSchemas doc f os acc).map Prod.fst →
      b ∈ acc.map Prod.fst ∨ a ∈ (collectRefSchemas doc f os acc).map Prod.fst := by
  intro f
  induction f with
  | zero =>
    intro os acc hneed hbm
    have h2 := needed_ge_two doc os acc
    exact absurd hneed (by omega)
  | succ f ih =>
    intro os acc hneed hbmem
    cases os with
    | none =>
      left
      rwa [collect_none] at hbmem
    | some s =>
      by_cases href : truthyS s.ref = true
      · simp only [collectRefSchemas] at hbmem ⊢
        rw [if_pos href] at hbmem ⊢
        by_cases hc : (lastSeg (s.ref.getD "") ≠ "" ∧
            acc.all (fun p => p.1 != lastSeg (s.ref.getD "")) = true)
        · rw [if_pos hc] at hbmem ⊢
          have hrv : (resolveRef doc (some s)).getD s =
              (getSchemaFromRef doc (s.ref.getD "")).getD s := by
            simp [resolveRef, href]
          rw [hrv] at hbmem ⊢
          by_cases hrb : lastSeg (s.ref.getD "") = b
          · right
            have hgs : getSchemaFromRef doc (s.ref.getD "") = some B := by
              unfold getSchemaFromRef
              rw [hrb, if_neg hbne]
              exact hB
            rw [hgs]
            simp only [Option.getD_some]
            have hss := needed_ge_size doc s acc (lookup_size_le hB)
            exact collect_walk_inserts doc hBr hBpl hmB hrBA hsBA hane f _ (by omega)
          · cases hlk : getSchemaFromRef doc (s.ref.getD "") with
            | none =>
              rw [hlk] at hbmem
              simp only [Option.getD_none] at hbmem ⊢
              rw [collect_ref_stop doc href (by simp) f] at hbmem ⊢
              left
              rw [List.map_append] at hbmem
              rcases List.mem_append.mp hbmem with h1 | h2
              · exact h1
              · simp at h2
                exact absurd h2.symm hrb
            | some v =>
              rw [hlk] at hbmem
              simp only [Option.getD_some] at hbmem ⊢
              have hlk2 : lookupSchema doc (lastSeg (s.ref.getD "")) = some v := by
                unfold getSchemaFromRef at hlk
                rw [if_neg hc.1] at hlk
                exact hlk
              have hb2 := needed_le_ref doc (s := s) (lookup_mem_keys hlk2)
                (all_ne_not_mem hc.2) (lookup_size_le hlk2)
              rcases ih (some v) _ (by omega) hbmem with h1 | h2
              · left
                rw [List.map_append] at h1
                rcases List.mem_append.mp h1 with h3 | h4
                · exact h3
                · simp at h4
                  exact absurd h4.symm hrb
              · right
                exact h2
        · rw [if_neg hc] at hbmem ⊢
          left
          exact hbmem
      · simp only [collectRefSchemas] at hbmem ⊢
        rw [if_neg href] at hbmem ⊢
        have hsubB : ∀ (os2 : Option Schema) (acc2 : Doc),
            (∀ k, k ∈ acc.map Prod.fst → k ∈ acc2.map Prod.fst) →
            osSize os2 < schemaSize s →
            b ∈ (collectRefSchemas doc f os2 acc2).map Prod.fst →
            b ∈ acc2.map Prod.fst ∨
              a ∈ (collectRefSchemas doc f os2 acc2).map Prod.fst := by
          intro os2 acc2 hsup hsz hbm
          have hb2 := needed_le_struct doc (s := s) hsup hsz
          exact ih os2 acc2 (by omega) hbm
        have hfoldB : ∀ {α : Type} (gf : α → Option Schema) (l : List α),
            (∀ x ∈ l, osSize (gf x) < schemaSize s) →
            ∀ acc2 : Doc, (∀ k, k ∈ acc.map Prod.fst → k ∈ acc2.map Prod.fst) →
            b ∈ (l.foldl (fun a3 x => collectRefSchemas doc f (gf x) a3) acc2).map Prod.fst →
            b ∈ acc2.map Prod.fst ∨
              a ∈ (l.foldl (fun a3 x => collectRefSchemas doc f (gf x) a3) acc2).map
                Prod.fst := by
          intro α gf l
          induction l with
          | nil =>
            intro hsz acc2 hsup hbm
            left
            exact hbm
          | cons x xs ihl =>
            intro hsz acc2 hsup hbm
            rw [List.foldl_cons] at hbm ⊢
            have hsup3 : ∀ k, k ∈ acc.map Prod.fst →
                k ∈ (collectRefSchemas doc f (gf x) acc2).map Prod.fst :=
              fun k hk => collect_keys_superset doc f (gf x) acc2 (hsup k hk)
            rcases ihl (fun y hy => hsz y (List.mem_cons_of_mem _ hy)) _ hsup3 hbm
              with h1 | h2
            · rcases hsubB (gf x) acc2 hsup (hsz x (List.mem_cons_self _ _)) h1 with h3 | h4
              · left; exact h3
              · right
                exact foldl_keys_superset doc f _ xs _ h4
            · right; exact h2
        have liftI : ∀ (a1 : Doc) {k : String}, k ∈ a1.map Prod.fst →
            k ∈ ((match s.items with
              | some it => collectRefSchemas doc f (some it) a1
              | none => a1)).map Prod.fst := by
          intro a1 k h1
          cases s.items with
          | none => exact h1
          | some it => exact collect_keys_superset doc f (some it) a1 h1
        have liftBr : ∀ (ol : Option (List Schema)) (a1 : Doc) {k : String},
            k ∈ a1.map Prod.fst →
            k ∈ ((match ol with
              | some l => l.foldl (fun a3 v => collectRefSchemas doc f (some v) a3) a1
              | none => a1)).map Prod.fst := by
          intro ol a1 k h1
          cases ol with
          | none => exact h1
          | some l => exact foldl_keys_superset doc f some l a1 h1
        have stagePB : ∀ a1 : Doc, (∀ k, k ∈ acc.map Prod.fst → k ∈ a1.map Prod.fst) →
            b ∈ ((match s.properties with
              | some l => l.foldl
                  (fun a3 (p : String × Schema) => collectRefSchemas doc f (some p.2) a3) a1
              | none => a1)).map Prod.fst →
            b ∈ a1.map Prod.fst ∨ a ∈ ((match s.properties with
              | some l => l.foldl
                  (fun a3 (p : String × Schema) => collectRefSchemas doc f (some p.2) a3) a1
              | none => a1)).map Prod.fst := by
          intro a1 hsup hbm
          cases hp : s.properties with
          | none =>
            rw [hp] at hbm
            left
            exact hbm
          | some pl =>
            rw [hp] at hbm
            exact hfoldB (fun p : String × Schema => some p.2) pl
              (fun x hx => schemaSize_props_lt hp hx) a1 hsup hbm
        have stageIB : ∀ a1 : Doc, (∀ k, k ∈ acc.map Prod.fst → k ∈ a1.map Prod.fst) →
            b ∈ ((match s.items with
              | some it => collectRefSchemas doc f (some it) a1
              | none => a1)).map Prod.fst →
            b ∈ a1.map Prod.fst ∨ a ∈ ((match s.items with
              | some it => collectRefSchemas doc f (some it) a1
              | none => a1)).map Prod.fst := by
          intro a1 hsup hbm
          cases hp : s.items with
          | none =>
            rw [hp] at hbm
            left
            exact hbm
          | some it =>
            rw [hp] at hbm
            exact hsubB (some it) a1 hsup (schemaSize_items_lt hp) hbm
        have stageBrB : ∀ (ol : Option (List Schema)),
            (∀ l2, ol = some l2 → ∀ x ∈ l2, schemaSize x < schemaSize s) →
            ∀ a1 : Doc, (∀ k, k ∈ acc.map Prod.fst → k ∈ a1.map Prod.fst) →
            b ∈ ((match ol with
              | some l => l.foldl (fun a3 v => collectRefSchemas doc f (some v) a3) a1
              | none => a1)).map Prod.fst →
            b ∈ a1.map Prod.fst ∨ a ∈ ((match ol with
              | some l => l.foldl (fun a3 v => collectRefSchemas doc f (some v) a3) a1
              | none => a1)).map Prod.fst := by
          intro ol hsz a1 hsup hbm
          cases ol with
          | none => left; exact hbm
          | some l =>
            exact hfoldB some l (hsz l rfl) a1 hsup hbm
        have sup0 : ∀ k, k ∈ acc.map Prod.fst → k ∈ acc.map Prod.fst := fun k hk => hk
        have supP : ∀ k, k ∈ acc.map Prod.fst →
            k ∈ ((match s.properties with
              | some l => l.foldl
                  (fun a3 (p : String × Schema) => collectRefSchemas doc f (some p.2) a3) acc
              | none => acc)).map Prod.fst := by
          intro k hk
          cases hp : s.properties with
          | none => exact hk
          | some pl => exact foldl_keys_superset doc f _ pl acc hk
        have supI := fun k hk => liftI _ (supP k hk)
        have supA := fun k hk => liftBr s.anyOf _ (supI k hk)
        have supO := fun k hk => liftBr s.oneOf _ (supA k hk)
        rcases stageBrB s.allOf (fun l2 he x hx => schemaSize_allOf_lt he hx) _ supO hbmem
          with h1 | h2
        · rcases stageBrB s.oneOf (fun l2 he x hx => schemaSize_oneOf_lt he hx) _ supA h1
            with h3 | h4
          · rcases stageBrB s.anyOf (fun l2 he x hx => schemaSize_anyOf_lt he hx) _ supI h3
              with h5 | h6
            · rcases stageIB _ supP h5 with h7 | h8
              · rcases stagePB _ sup0 h7 with h9 | h10
                · left; exact h9
                · right
                  exact liftBr s.allOf _ (liftBr s.oneOf _ (liftBr s.anyOf _ (liftI _ h10)))
              · right
                exact liftBr s.allOf _ (liftBr s.oneOf _ (liftBr s.anyOf _ h8))
            · right
              exact liftBr s.allOf _ (liftBr s.oneOf _ h6)
          · right
            exact liftBr s.allOf _ h4
        · right
          exact h2

/-- C4: for every document containing named schemas A and B in which a
property of A is a reference whose final segment names B, and a property
of B is a reference whose final segment names A, collecting references
starting from A's definition terminates (the result is the same for every
fuel beyond the bound computed from the document), and the resulting
accumulator records the names of A and B each exactly once; the name is
recorded before the collector recurses into the referenced definition,
which is the cycle guard. -/
theorem c4_cycle_safety (doc : Doc) (a b pn qn : String)
    (A B rAB rBA : Schema) (plA plB : List (String × Schema))
    (_hA : lookupSchema doc a = some A) (hB : lookupSchema doc b = some B)
    (hAr : truthyS A.ref = false) (hBr : truthyS B.ref = false)
    (hApl : A.properties = some plA) (hmA : (pn, rAB) ∈ plA)
    (hBpl : B.properties = some plB) (hmB : (qn, rBA) ∈ plB)
    (hrAB : truthyS rAB.ref = true) (hsAB : lastSeg (rAB.ref.getD "") = b)
    (hrBA : truthyS rBA.ref = true) (hsBA : lastSeg (rBA.ref.getD "") = a)
    (hane : a ≠ "") (hbne : b ≠ "") :
    (∀ f g, needed doc (some A) [] ≤ f → needed doc (some A) [] ≤ g →
      collectRefSchemas doc f (some A) [] = collectRefSchemas doc g (some A) []) ∧
    (∀ f, needed doc (some A) [] ≤ f →
      ((collectRefSchemas doc f (some A) []).map Prod.fst).count a = 1 ∧
      ((collectRefSchemas doc f (some A) []).map Prod.fst).count b = 1) := by
  constructor
  · intro f g hf hg
    exact collect_fuel_stable doc f (some A) [] g hf hg
  · intro f hf
    have hnodup : ((collectRefSchemas doc f (some A) []).map Prod.fst).Nodup :=
      collect_keys_nodup doc f (some A) [] (by simp)
    have hge := needed_ge_two doc (some A) ([] : Doc)
    have hbmem : b ∈ (collectRefSchemas doc f (some A) []).map Prod.fst :=
      collect_walk_inserts doc hAr hApl hmA hrAB hsAB hbne f [] (by omega)
    have hamem : a ∈ (collectRefSchemas doc f (some A) []).map Prod.fst := by
      rcases collect_first_sees doc hB hBr hBpl hmB hrBA hsBA hane hbne f (some A) [] hf
        hbmem with h1 | h2
      · simp at h1
      · exact h2
    exact ⟨List.count_eq_one_of_mem hnodup hamem, List.count_eq_one_of_mem hnodup hbmem⟩

theorem c4_cycle_safety_witness :
    lookupSchema docAB "A" = some schA ∧ lookupSchema docAB "B" = some schB ∧
    ((collectRefSchemas docAB (needed docAB (some schA) []) (some schA) []).map
      Prod.fst).count "A" = 1 ∧
    ((collectRefSchemas docAB (needed docAB (some schA) []) (some schA) []).map
      Prod.fst).count "B" = 1 :=
  ⟨rfl, rfl,
    (c4_cycle_safety docAB "A" "B" "toB" "toA" schA schB (refTo "B") (refTo "A")
      [("toB", refTo "B")] [("toA", refTo "A")] rfl rfl rfl rfl rfl
      (List.mem_singleton_self _) rfl (List.mem_singleton_self _)
      rfl rfl rfl rfl (by decide) (by decide)).2
      (needed docAB (some schA) []) (le_refl _)⟩

theorem c2_array_of_union_grouping_witness :
    ∃ sid1 sid2 tc1 tc2,
      buildUnionVariants docXY 1 emptySections propXY =
        [ParameterUnionVariant.mk "array of" false none "object"
          (some [ParameterUnionVariant.mk "X" false sid1 tc1 none,
                 ParameterUnionVariant.mk "Y" false sid2 tc2 none])] :=
  c2_array_of_union_grouping 0 docXY emptySections objX objX
    rfl rfl rfl rfl rfl rfl rfl rfl



theorem insertLe_perm {α : Type} (le : α → α → Bool) (x : α) :
    ∀ l : List α, (insertLe le x l).Perm (x :: l) := by
  intro l
  induction l with
  | nil => exact List.Perm.refl _
  | cons y ys ih =>
    by_cases h : le x y
    · simp [insertLe, h]
    · have e : insertLe le x (y :: ys) = y :: insertLe le x ys := by
        simp [insertLe, h]
      rw [e]
      exact (ih.cons y).trans (List.Perm.swap x y ys)

theorem sortLe_perm {α : Type} (le : α → α → Bool) :
    ∀ l : List α, (sortLe le l).Perm l := by
  intro l
  induction l with
  | nil => exact List.Perm.refl _
  | cons x xs ih =>
    exact (insertLe_perm le x (sortLe le xs)).trans (ih.cons x)

theorem string_eq_of_data {a b : String} (h : a.data = b.data) : a = b := by
  cases a
  cases b
  exact congrArg String.mk h

theorem string_data_append (a b : String) : (a ++ b).data = a.data ++ b.data := by
  cases a; cases b; rfl

theorem kindStr_id_inj : ∀ (k1 k2 : SectionKind) (n1 n2 : String),
    kindStr k1 ++ "-" ++ n1 = kindStr k2 ++ "-" ++ n2 → k1 = k2 ∧ n1 = n2 := by
  have eE : ("enum" : String).data = ['e', 'n', 'u', 'm'] := rfl
  have eO : ("object" : String).data = ['o', 'b', 'j', 'e', 'c', 't'] := rfl
  have eU : ("union" : String).data = ['u', 'n', 'i', 'o', 'n'] := rfl
  have eD : ("-" : String).data = ['-'] := rfl
  intro k1 k2 n1 n2 h
  have hd := congrArg String.data h
  simp only [string_data_append] at hd
  cases k1 <;> cases k2 <;> simp only [kindStr, eE, eO, eU, eD] at hd
  · exact ⟨rfl, string_eq_of_data (List.append_cancel_left hd)⟩
  · simp at hd
  · simp at hd
  · simp at hd
  · exact ⟨rfl, string_eq_of_data (List.append_cancel_left hd)⟩
  · simp at hd
  · simp at hd
  · simp at hd
  · exact ⟨rfl, string_eq_of_data (List.append_cancel_left hd)⟩

theorem nodup_keys_unique {α : Type} : ∀ (l : List (String × α)) (nm : String) (a b : α),
    (l.map Prod.fst).Nodup → (nm, a) ∈ l → (nm, b) ∈ l → a = b := by
  intro l
  induction l with
  | nil =>
    intro nm a b _ h
    cases h
  | cons hd tl ih =>
    intro nm a b hN ha hb
    simp only [List.map_cons, List.nodup_cons] at hN
    rcases List.mem_cons.mp ha with h1 | h1 <;> rcases List.mem_cons.mp hb with h2 | h2
    · have := h1.trans h2.symm
      exact (Prod.ext_iff.mp this).2
    · exfalso
      have hm : nm ∈ tl.map Prod.fst := List.mem_map.mpr ⟨(nm, b), h2, rfl⟩
      rw [← h1] at hN
      exact hN.1 hm
    · exfalso
      have hm : nm ∈ tl.map Prod.fst := List.mem_map.mpr ⟨(nm, a), h1, rfl⟩
      rw [← h2] at hN
      exact hN.1 hm
    · exact ih nm a b hN.2 h1 h2

theorem sectionLoop_excludes (doc : Doc) (fuel : Nat) (nm : String) :
    ∀ (rest : List (String × Schema)) (byName : List (String × SectionRef))
      (entries : List SectionEntryT),
      (∀ sc, (nm, sc) ∈ rest → getInlineable doc fuel (some sc) = true) →
      nm ∉ byName.map Prod.fst →
      (∀ e ∈ entries, e.name ≠ nm) →
      nm ∉ (sectionLoop doc fuel rest byName entries).1.map Prod.fst ∧
      (∀ e ∈ (sectionLoop doc fuel rest byName entries).2, e.name ≠ nm) := by
  intro rest
  induction rest with
  | nil =>
    intro byName entries _ h2 h3
    exact ⟨h2, h3⟩
  | cons hd tl ih =>
    intro byName entries h1 h2 h3
    obtain ⟨n, sc⟩ := hd
    have h1tl : ∀ sc2, (nm, sc2) ∈ tl → getInlineable doc fuel (some sc2) = true :=
      fun sc2 hm => h1 sc2 (List.mem_cons_of_mem _ hm)
    by_cases hinl : getInlineable doc fuel (some sc) = true
    · have e : sectionLoop doc fuel ((n, sc) :: tl) byName entries =
          sectionLoop doc fuel tl byName entries := by
        simp [sectionLoop, hinl]
      rw [e]
      exact ih byName entries h1tl h2 h3
    · have hne : n ≠ nm := by
        intro heq
        subst heq
        exact hinl (h1 sc (List.mem_cons_self _ _))
      cases hk : getSchemaKind doc fuel (some sc) with
      | none =>
        have e : sectionLoop doc fuel ((n, sc) :: tl) byName entries =
            sectionLoop doc fuel tl byName entries := by
          simp [sectionLoop, hinl, hk]
        rw [e]
        exact ih byName entries h1tl h2 h3
      | some kind =>
        by_cases hb : byName.any (fun p => p.1 == n) = true
        · have e : sectionLoop doc fuel ((n, sc) :: tl) byName entries =
              sectionLoop doc fuel tl byName entries := by
            simp [sectionLoop, hinl, hk, hb]
          rw [e]
          exact ih byName entries h1tl h2 h3
        · have e : sectionLoop doc fuel ((n, sc) :: tl) byName entries =
              sectionLoop doc fuel tl
                (byName ++ [(n, ⟨kindStr kind ++ "-" ++ n, kind⟩)])
                (entries ++ [⟨n, sc, kind, kindStr kind ++ "-" ++ n⟩]) := by
            simp [sectionLoop, hinl, hk, hb]
          rw [e]
          refine ih _ _ h1tl ?_ ?_
          · simp only [List.map_append, List.map_cons, List.map_nil, List.mem_append]
            rintro (hmem | hmem)
            · exact h2 hmem
            · simp at hmem
              exact hne hmem.symm
          · intro e2 he2
            rcases List.mem_append.mp he2 with he | he
            · exact h3 e2 he
            · rw [List.mem_singleton] at he
              subst he
              exact hne

/-- C1: a name mapped by the reference map to a schema the classifier
marks inlineable never appears as a key of the built section set: it is
not in the byName lookup table and no enum, object or union section
carries it, no matter how many entries reference it. -/
theorem c1_inlineable_never_sectioned (doc : Doc) (fuel : Nat)
    (refs : List (String × Schema)) (nm : String) (sc : Schema)
    (hN : (refs.map Prod.fst).Nodup) (hmem : (nm, sc) ∈ refs)
    (hinl : getInlineable doc fuel (some sc) = true) :
    nm ∉ (buildSectionsFromRefs doc fuel refs).byName.map Prod.fst ∧
    (∀ e ∈ (buildSectionsFromRefs doc fuel refs).enums, e.name ≠ nm) ∧
    (∀ o ∈ (buildSectionsFromRefs doc fuel refs).objects, o.name ≠ nm) ∧
    (∀ u ∈ (buildSectionsFromRefs doc fuel refs).unions, u.name ≠ nm) := by
  have hall : ∀ sc2, (nm, sc2) ∈ refs → getInlineable doc fuel (some sc2) = true := by
    intro sc2 hm2
    rw [nodup_keys_unique refs nm sc2 sc hN hm2 hmem]
    exact hinl
  have hloop := sectionLoop_excludes doc fuel nm refs [] [] hall (by simp) (by simp)
  refine ⟨hloop.1, ?_, ?_, ?_⟩
  · intro e he
    have he2 := (sortLe_perm
      (fun (a b : EnumSection) => strLeB a.name b.name) _).mem_iff.mp he
    obtain ⟨e0, he0, heq⟩ := List.mem_map.mp he2
    rw [← heq]
    exact hloop.2 e0 (List.mem_of_mem_filter he0)
  · intro o ho
    have ho2 := (sortLe_perm
      (fun (a b : ObjectSection) => strLeB a.name b.name) _).mem_iff.mp ho
    obtain ⟨e0, he0, heq⟩ := List.mem_map.mp ho2
    rw [← heq]
    exact hloop.2 e0 (List.mem_of_mem_filter he0)
  · intro u hu
    have hu2 := (sortLe_perm
      (fun (a b : UnionSection) => strLeB a.name b.name) _).mem_iff.mp hu
    obtain ⟨e0, he0, heq⟩ := List.mem_map.mp hu2
    rw [← heq]
    exact hloop.2 e0 (List.mem_of_mem_filter he0)



theorem sectionLoop_inv (doc : Doc) (fuel : Nat) :
    ∀ (rest : List (String × Schema)) (byName : List (String × SectionRef))
      (entries : List SectionEntryT),
      (entries.map SectionEntryT.name).Nodup →
      (∀ e ∈ entries, e.name ∈ byName.map Prod.fst) →
      (∀ e ∈ entries, e.id = kindStr e.kind ++ "-" ++ e.name) →
      ((sectionLoop doc fuel rest byName entries).2.map SectionEntryT.name).Nodup ∧
      (∀ e ∈ (sectionLoop doc fuel rest byName entries).2,
        e.id = kindStr e.kind ++ "-" ++ e.name) := by
  intro rest
  induction rest with
  | nil =>
    intro byName entries h1 _ h3
    exact ⟨h1, h3⟩
  | cons hd tl ih =>
    intro byName entries h1 h2 h3
    obtain ⟨n, sc⟩ := hd
    by_cases hinl : getInlineable doc fuel (some sc) = true
    · have e : sectionLoop doc fuel ((n, sc) :: tl) byName entries =
          sectionLoop doc fuel tl byName entries := by
        simp [sectionLoop, hinl]
      rw [e]
      exact ih byName entries h1 h2 h3
    · cases hk : getSchemaKind doc fuel (some sc) with
      | none =>
        have e : sectionLoop doc fuel ((n, sc) :: tl) byName entries =
            sectionLoop doc fuel tl byName entries := by
          simp [sectionLoop, hinl, hk]
        rw [e]
        exact ih byName entries h1 h2 h3
      | some kind =>
        by_cases hb : byName.any (fun p => p.1 == n) = true
        · have e : sectionLoop doc fuel ((n, sc) :: tl) byName entries =
              sectionLoop doc fuel tl byName entries := by
            simp [sectionLoop, hinl, hk, hb]
          rw [e]
          exact ih byName entries h1 h2 h3
        · have e : sectionLoop doc fuel ((n, sc) :: tl) byName entries =
              sectionLoop doc fuel tl
                (byName ++ [(n, ⟨kindStr kind ++ "-" ++ n, kind⟩)])
                (entries ++ [⟨n, sc, kind, kindStr kind ++ "-" ++ n⟩]) := by
            simp [sectionLoop, hinl, hk, hb]
          rw [e]
          have hnotin : n ∉ byName.map Prod.fst := by
            intro hmem
            obtain ⟨p, hp, hp1⟩ := List.mem_map.mp hmem
            exact hb (List.any_eq_true.mpr ⟨p, hp, by simp [hp1]⟩)
          refine ih _ _ ?_ ?_ ?_
          · simp only [List.map_append, List.map_cons, List.map_nil]
            rw [List.nodup_append]
            refine ⟨h1, List.nodup_singleton _, ?_⟩
            intro a ha
            simp only [List.mem_singleton]
            intro heq
            obtain ⟨e2, he2, he2n⟩ := List.mem_map.mp ha
            have := h2 e2 he2
            rw [he2n, heq] at this
            exact hnotin this
          · intro e2 he2
            simp only [List.map_append, List.map_cons, List.map_nil, List.mem_append]
            rcases List.mem_append.mp he2 with he | he
            · exact Or.inl (h2 e2 he)
            · rw [List.mem_singleton] at he
              subst he
              exact Or.inr (by simp)
          · intro e2 he2
            rcases List.mem_append.mp he2 with he | he
            · exact h3 e2 he
            · rw [List.mem_singleton] at he
              subst he
              rfl

theorem ids_as_names {β : Type} (E : List SectionEntryT) (k : SectionKind)
    (mk : SectionEntryT → β) (idf : β → String)
    (hid : ∀ e, idf (mk e) = e.id)
    (hId : ∀ e ∈ E, e.id = kindStr e.kind ++ "-" ++ e.name) :
    ((E.filter (fun e => e.kind == k)).map mk).map idf =
      ((E.filter (fun e => e.kind == k)).map SectionEntryT.name).map
        (fun n => kindStr k ++ "-" ++ n) := by
  rw [List.map_map, List.map_map]
  apply List.map_congr_left
  intro e he
  have h2 : e.kind = k := by simpa using (List.mem_filter.mp he).2
  simp only [Function.comp_apply]
  rw [hid e, hId e (List.mem_of_mem_filter he), h2]

/-- C9: within one call to the section builder all section ids, each
formed as the section kind, a dash and the schema name, are pairwise
distinct: the per-name guard gives each name at most one section, and the
three kind strings keep differently-kinded ids apart. -/
theorem c9_section_ids_distinct (doc : Doc) (fuel : Nat)
    (refs : List (String × Schema)) :
    (((buildSectionsFromRefs doc fuel refs).enums.map EnumSection.id) ++
     ((buildSectionsFromRefs doc fuel refs).objects.map ObjectSection.id) ++
     ((buildSectionsFromRefs doc fuel refs).unions.map UnionSection.id)).Nodup := by
  obtain ⟨hNd, hId⟩ := sectionLoop_inv doc fuel refs [] [] (by simp) (by simp) (by simp)
  have hEx : ∃ (mkE : SectionEntryT → EnumSection) (mkO : SectionEntryT → ObjectSection)
      (mkU : SectionEntryT → UnionSection),
      (buildSectionsFromRefs doc fuel refs).enums =
        sortLe (fun a b => strLeB a.name b.name)
          (((sectionLoop doc fuel refs [] []).2.filter
            (fun e => e.kind == SectionKind.enum)).map mkE) ∧
      (buildSectionsFromRefs doc fuel refs).objects =
        sortLe (fun a b => strLeB a.name b.name)
          (((sectionLoop doc fuel refs [] []).2.filter
            (fun e => e.kind == SectionKind.object)).map mkO) ∧
      (buildSectionsFromRefs doc fuel refs).unions =
        sortLe (fun a b => strLeB a.name b.name)
          (((sectionLoop doc fuel refs [] []).2.filter
            (fun e => e.kind == SectionKind.union)).map mkU) ∧
      (∀ e, (mkE e).id = e.id) ∧ (∀ e, (mkO e).id = e.id) ∧ (∀ e, (mkU e).id = e.id) :=
    ⟨_, _, _, rfl, rfl, rfl, fun e => rfl, fun e => rfl, fun e => rfl⟩
  obtain ⟨mkE, mkO, mkU, he, ho, hu, hidE, hidO, hidU⟩ := hEx
  rw [he, ho, hu]
  set E := (sectionLoop doc fuel refs [] []).2 with hEdef
  have permE := (sortLe_perm (fun (a b : EnumSection) => strLeB a.name b.name)
    ((E.filter (fun e => e.kind == SectionKind.enum)).map mkE)).map EnumSection.id
  have permO := (sortLe_perm (fun (a b : ObjectSection) => strLeB a.name b.name)
    ((E.filter (fun e => e.kind == SectionKind.object)).map mkO)).map ObjectSection.id
  have permU := (sortLe_perm (fun (a b : UnionSection) => strLeB a.name b.name)
    ((E.filter (fun e => e.kind == SectionKind.union)).map mkU)).map UnionSection.id
  rw [List.Perm.nodup_iff ((permE.append permO).append permU)]
  rw [ids_as_names E SectionKind.enum mkE EnumSection.id hidE hId,
      ids_as_names E SectionKind.object mkO ObjectSection.id hidO hId,
      ids_as_names E SectionKind.union mkU UnionSection.id hidU hId]
  have hnames : ∀ k : SectionKind,
      ((E.filter (fun e => e.kind == k)).map SectionEntryT.name).Nodup := by
    intro k
    exact hNd.sublist ((List.filter_sublist E).map SectionEntryT.name)
  have hinj : ∀ k : SectionKind, Function.Injective
      (fun n => kindStr k ++ "-" ++ n) := by
    intro k a b h
    exact (kindStr_id_inj k k a b h).2
  have hdisj : ∀ (k1 k2 : SectionKind) (l1 l2 : List String), k1 ≠ k2 →
      List.Disjoint (l1.map (fun n => kindStr k1 ++ "-" ++ n))
        (l2.map (fun n => kindStr k2 ++ "-" ++ n)) := by
    intro k1 k2 l1 l2 hk x hx1 hx2
    obtain ⟨n1, _, he1⟩ := List.mem_map.mp hx1
    obtain ⟨n2, _, he2⟩ := List.mem_map.mp hx2
    exact hk (kindStr_id_inj k1 k2 n1 n2 (he1.trans he2.symm)).1
  rw [List.nodup_append]
  refine ⟨?_, (hnames SectionKind.union).map (hinj SectionKind.union), ?_⟩
  · rw [List.nodup_append]
    exact ⟨(hnames SectionKind.enum).map (hinj SectionKind.enum),
           (hnames SectionKind.object).map (hinj SectionKind.object),
           hdisj SectionKind.enum SectionKind.object _ _ (by simp)⟩
  · intro x hx
    rcases List.mem_append.mp hx with hx1 | hx1
    · exact hdisj SectionKind.enum SectionKind.union _ _ (by simp) hx1
    · exact hdisj SectionKind.object SectionKind.union _ _ (by simp) hx1

theorem c1_inlineable_never_sectioned_witness :
    ([("W", inlW)].map Prod.fst).Nodup ∧
    getInlineable [] 1 (some inlW) = true ∧
    "W" ∉ (buildSectionsFromRefs [] 1 [("W", inlW)]).byName.map Prod.fst :=
  ⟨by decide, rfl,
    (c1_inlineable_never_sectioned [] 1 [("W", inlW)] "W" inlW
      (by decide) (List.mem_singleton.mpr rfl) rfl).1⟩

end OpenResponses
